import Mathlib

/-!
Shallow embedding of the router-sync policy reconciliation engine
(`internal/router/manager.go`), its data model (`internal/models/models.go`)
and the policy watch path (`internal/nats/client.go`, the sync service).

The kernel policy-routing rule table is modelled as a structured list of
rules in listing order; the engine functions reproduce the Go code's
text-level parsing of `ip rule show` lines over the rendered listing.
Go strings are modelled as `List Char`.  The embedding covers the IPv4
rule table; full IP-address parsing (including IPv6 forms accepted by
Go's `net.ParseIP`) appears in the model of `models.Validate`.
-/

abbrev GoStr := List Char

/-! ### Decimal numerals (Go `strconv.Itoa` / rendering of priorities, tables) -/

def digitChar (n : Nat) : Char := Char.ofNat (48 + n)

def natCharsAux : Nat → Nat → GoStr
  | 0, _ => []
  | fuel+1, n => if n < 10 then [digitChar n] else natCharsAux fuel (n / 10) ++ [digitChar (n % 10)]

/-- Decimal rendering of a natural number, as Go prints non-negative ints. -/
def natChars (n : Nat) : GoStr := natCharsAux (n + 1) n

theorem natCharsAux_congr : ∀ f₁ f₂ n, n < f₁ → n < f₂ →
    natCharsAux f₁ n = natCharsAux f₂ n := by
  intro f₁
  induction f₁ with
  | zero => intro f₂ n h; omega
  | succ f ih =>
    intro f₂ n h₁ h₂
    cases f₂ with
    | zero => omega
    | succ f₂' =>
      simp only [natCharsAux]
      by_cases hn : n < 10
      · simp [hn]
      · simp only [hn, if_false]
        have hlt : n / 10 < n := Nat.div_lt_self (by omega) (by omega)
        rw [ih f₂' (n / 10) (by omega) (by omega)]

theorem natChars_eq_aux (fuel n : Nat) (h : n < fuel) : natChars n = natCharsAux fuel n :=
  natCharsAux_congr (n + 1) fuel n (Nat.lt_succ_self n) h

theorem natCharsAux_ne_nil (fuel n : Nat) (h : n < fuel) : natCharsAux fuel n ≠ [] := by
  cases fuel with
  | zero => omega
  | succ f =>
    simp only [natCharsAux]
    by_cases hn : n < 10 <;> simp [hn]

theorem natChars_ne_nil (n : Nat) : natChars n ≠ [] :=
  natCharsAux_ne_nil (n + 1) n (Nat.lt_succ_self n)

theorem digitChar_isDigit {n : Nat} (h : n < 10) : (digitChar n).isDigit = true := by
  interval_cases n <;> decide

theorem natCharsAux_all_digit : ∀ fuel n, n < fuel →
    ∀ c ∈ natCharsAux fuel n, c.isDigit = true := by
  intro fuel
  induction fuel with
  | zero => intro n h; omega
  | succ f ih =>
    intro n h c hc
    simp only [natCharsAux] at hc
    by_cases hn : n < 10
    · simp [hn] at hc; subst hc; exact digitChar_isDigit hn
    · simp only [hn, if_false, List.mem_append, List.mem_singleton] at hc
      rcases hc with hc | hc
      · exact ih (n / 10) (by
          have : n / 10 < n := Nat.div_lt_self (by omega) (by omega)
          omega) c hc
      · subst hc; exact digitChar_isDigit (Nat.mod_lt n (by omega))

theorem natChars_all_digit (n : Nat) : ∀ c ∈ natChars n, c.isDigit = true :=
  natCharsAux_all_digit (n + 1) n (Nat.lt_succ_self n)

/-! ### Go `strconv.Atoi`, specialised to the non-negative decimal numerals
that rendered rule listings contain. -/

def digitVal (c : Char) : Nat := c.toNat - 48

def goAtoi (s : GoStr) : Option Nat :=
  if s ≠ [] ∧ s.all Char.isDigit then
    some (s.foldl (fun acc c => acc * 10 + digitVal c) 0)
  else none

/-- `strconv.Atoi` at call sites where the Go code discards the error
(the value is the zero int on failure). -/
def goAtoiD (s : GoStr) : Nat := (goAtoi s).getD 0

theorem digitVal_digitChar {n : Nat} (h : n < 10) : digitVal (digitChar n) = n := by
  interval_cases n <;> decide

theorem natCharsAux_foldl : ∀ fuel n, n < fuel → ∀ acc,
    (natCharsAux fuel n).foldl (fun acc c => acc * 10 + digitVal c) acc =
      acc * 10 ^ (natCharsAux fuel n).length + n := by
  intro fuel
  induction fuel with
  | zero => intro n h; omega
  | succ f ih =>
    intro n h acc
    simp only [natCharsAux]
    by_cases hn : n < 10
    · simp [hn, List.foldl, digitVal_digitChar hn]
    · simp only [hn, if_false]
      have hdiv : n / 10 < n := Nat.div_lt_self (by omega) (by omega)
      rw [List.foldl_append, ih (n / 10) (by omega) acc]
      simp only [List.foldl, List.length_append, List.length_singleton]
      rw [digitVal_digitChar (Nat.mod_lt n (by omega))]
      rw [pow_succ]
      have := Nat.div_add_mod n 10
      ring_nf
      omega

theorem goAtoi_natChars (n : Nat) : goAtoi (natChars n) = some n := by
  unfold goAtoi
  rw [if_pos]
  · unfold natChars
    rw [natCharsAux_foldl (n + 1) n (Nat.lt_succ_self n) 0]
    simp
  · refine ⟨natChars_ne_nil n, ?_⟩
    rw [List.all_eq_true]
    exact natChars_all_digit n

theorem goAtoiD_natChars (n : Nat) : goAtoiD (natChars n) = n := by
  simp [goAtoiD, goAtoi_natChars]

/-- Digits are none of the structural characters of a rule line. -/
theorem isDigit_ne {c : Char} (h : c.isDigit = true) :
    c ≠ 'f' ∧ c ≠ ' ' ∧ c ≠ '/' ∧ c ≠ ':' ∧ c ≠ 'a' ∧ c ≠ 'l' := by
  simp only [Char.isDigit] at h
  refine ⟨?_, ?_, ?_, ?_, ?_, ?_⟩ <;> (intro he; subst he; simp at h)

/-! ### Go `strings.Fields` (whitespace splitting; rendered lines use single
spaces only, so splitting on `' '` coincides with `strings.Fields`). -/

theorem length_dropWhile_le' (p : Char → Bool) (l : GoStr) :
    (l.dropWhile p).length ≤ l.length := by
  induction l with
  | nil => simp [List.dropWhile]
  | cons c t ih =>
    simp only [List.dropWhile]
    by_cases h : p c
    · simp only [h]; exact Nat.le_succ_of_le ih
    · simp [h]

def goFieldsAux : GoStr → GoStr → List GoStr
  | [], cur => if cur = [] then [] else [cur.reverse]
  | c :: rest, cur =>
    if c = ' ' then
      if cur = [] then goFieldsAux rest [] else cur.reverse :: goFieldsAux rest []
    else goFieldsAux rest (c :: cur)

def goFields (l : GoStr) : List GoStr := goFieldsAux l []

theorem goFieldsAux_push (w : GoStr) (hw : ∀ c ∈ w, c ≠ ' ') :
    ∀ l' cur, goFieldsAux (w ++ l') cur = goFieldsAux l' (w.reverse ++ cur) := by
  induction w with
  | nil => intro l' cur; simp
  | cons c t ih =>
    intro l' cur
    have hc : c ≠ ' ' := hw c (List.mem_cons_self c t)
    have ht : ∀ x ∈ t, x ≠ ' ' := fun x hx => hw x (List.mem_cons_of_mem c hx)
    rw [List.cons_append, goFieldsAux]
    simp only [hc, if_false]
    rw [ih ht l' (c :: cur)]
    simp

theorem goFields_word (w rest : GoStr) (hne : w ≠ []) (hw : ∀ c ∈ w, c ≠ ' ') :
    goFields (w ++ ' ' :: rest) = w :: goFields rest := by
  unfold goFields
  rw [goFieldsAux_push w hw (' ' :: rest) []]
  rw [goFieldsAux]
  have hrev : w.reverse ++ [] ≠ [] := by simp [hne]
  simp only [if_pos rfl, hrev, if_false, if_neg hrev]
  simp

theorem goFields_single (w : GoStr) (hne : w ≠ []) (hw : ∀ c ∈ w, c ≠ ' ') :
    goFields w = [w] := by
  unfold goFields
  have h0 : w ++ ([] : GoStr) = w := by simp
  rw [← h0, goFieldsAux_push w hw [] []]
  rw [goFieldsAux]
  have hrev : w.reverse ++ [] ≠ [] := by simp [hne]
  simp [hrev, hne]

/-! ### Go `strings.Contains` / `strings.HasPrefix` over `List Char` -/

def pfxB : GoStr → GoStr → Bool
  | [], _ => true
  | _ :: _, [] => false
  | a :: as, b :: bs => a = b && pfxB as bs

def goContains : GoStr → GoStr → Bool
  | [], sub => pfxB sub []
  | c :: t, sub => pfxB sub (c :: t) || goContains t sub

theorem pfxB_iff (u v : GoStr) : pfxB u v = true ↔ ∃ w, v = u ++ w := by
  induction u generalizing v with
  | nil => simp [pfxB]
  | cons a as ih =>
    cases v with
    | nil => simp [pfxB]
    | cons b bs =>
      simp only [pfxB, Bool.and_eq_true, decide_eq_true_eq, ih]
      constructor
      · rintro ⟨rfl, w, rfl⟩; exact ⟨w, rfl⟩
      · rintro ⟨w, hw⟩
        injection hw with h1 h2
        exact ⟨h1.symm, w, h2⟩

theorem goContains_iff (l sub : GoStr) :
    goContains l sub = true ↔ ∃ a b, l = a ++ sub ++ b := by
  induction l with
  | nil =>
    simp only [goContains, pfxB_iff]
    constructor
    · rintro ⟨w, hw⟩
      exact ⟨[], w, by simpa using hw⟩
    · rintro ⟨a, b, hab⟩
      have ha : a = [] := by
        cases a <;> simp_all
      subst ha
      exact ⟨b, by simpa using hab⟩
  | cons c t ih =>
    simp only [goContains, Bool.or_eq_true, pfxB_iff, ih]
    constructor
    · rintro (⟨w, hw⟩ | ⟨a, b, hab⟩)
      · exact ⟨[], w, by simpa using hw⟩
      · exact ⟨c :: a, b, by simp [hab]⟩
    · rintro ⟨a, b, hab⟩
      cases a with
      | nil => exact Or.inl ⟨b, by simpa using hab⟩
      | cons x xs =>
        right
        injection hab with h1 h2
        exact ⟨xs, b, h2⟩

theorem goContains_of_append (a sub b : GoStr) : goContains (a ++ sub ++ b) sub = true :=
  (goContains_iff _ _).2 ⟨a, b, rfl⟩

/-! ### IPv4 source networks and their textual rendering -/

structure IPv4 where
  o1 : Nat
  o2 : Nat
  o3 : Nat
  o4 : Nat
deriving DecidableEq, Repr

/-- `net.IP.String()` for a 4-byte IP: dotted decimal. -/
def ipStr (ip : IPv4) : GoStr :=
  natChars ip.o1 ++ '.' :: (natChars ip.o2 ++ '.' :: (natChars ip.o3 ++ '.' :: natChars ip.o4))

/-- A parsed source network (`*net.IPNet` with a CIDR mask): base IP plus
prefix length. -/
structure SrcNet where
  ip : IPv4
  len : Nat
deriving DecidableEq, Repr

/-- `net.IPNet.String()`: always `ip/len`, including `/32`. -/
def srcNetStr (s : SrcNet) : GoStr := ipStr s.ip ++ '/' :: natChars s.len

/-- How `ip rule show` renders a rule's source selector: `all` for prefix
length 0, the bare IP for a /32, and `ip/len` otherwise. -/
def srcShow (s : SrcNet) : GoStr :=
  if s.len = 0 then ['a', 'l', 'l']
  else if s.len = 32 then ipStr s.ip
  else ipStr s.ip ++ '/' :: natChars s.len

theorem natChars_inj {a b : Nat} (h : natChars a = natChars b) : a = b := by
  have := goAtoi_natChars a
  rw [h, goAtoi_natChars b] at this
  exact (Option.some_inj.1 this).symm

theorem append_sep_inj {sep : Char} : ∀ {u₁ u₂ v₁ v₂ : GoStr},
    u₁ ++ sep :: v₁ = u₂ ++ sep :: v₂ → sep ∉ u₁ → sep ∉ u₂ → u₁ = u₂ ∧ v₁ = v₂ := by
  intro u₁
  induction u₁ with
  | nil =>
    intro u₂ v₁ v₂ h h1 h2
    cases u₂ with
    | nil => simpa using h
    | cons c t =>
      exfalso
      injection h with hc _
      exact h2 (hc ▸ List.mem_cons_self c t)
  | cons c t ih =>
    intro u₂ v₁ v₂ h h1 h2
    cases u₂ with
    | nil =>
      exfalso
      injection h with hc _
      exact h1 (hc ▸ List.mem_cons_self c t)
    | cons c₂ t₂ =>
      injection h with hc ht
      have := ih ht (fun hm => h1 (List.mem_cons_of_mem c hm))
        (fun hm => h2 (List.mem_cons_of_mem c₂ hm))
      exact ⟨by rw [hc, this.1], this.2⟩

theorem dot_not_mem_natChars (n : Nat) : '.' ∉ natChars n := by
  intro h
  have := natChars_all_digit n '.' h
  simp at this

theorem ipStr_inj {a b : IPv4} (h : ipStr a = ipStr b) : a = b := by
  unfold ipStr at h
  have h1 := append_sep_inj h (dot_not_mem_natChars _) (dot_not_mem_natChars _)
  have h2 := append_sep_inj h1.2 (dot_not_mem_natChars _) (dot_not_mem_natChars _)
  have h3 := append_sep_inj h2.2 (dot_not_mem_natChars _) (dot_not_mem_natChars _)
  have e1 : a.o1 = b.o1 := natChars_inj h1.1
  have e2 : a.o2 = b.o2 := natChars_inj h2.1
  have e3 : a.o3 = b.o3 := natChars_inj h3.1
  have e4 : a.o4 = b.o4 := natChars_inj h3.2
  cases a; cases b; simp_all

theorem ipStr_chars {ip : IPv4} : ∀ c ∈ ipStr ip, c.isDigit = true ∨ c = '.' := by
  intro c hc
  unfold ipStr at hc
  simp only [List.mem_append, List.mem_cons] at hc
  rcases hc with h | rfl | h | rfl | h | rfl | h
  · exact Or.inl (natChars_all_digit _ _ h)
  · exact Or.inr rfl
  · exact Or.inl (natChars_all_digit _ _ h)
  · exact Or.inr rfl
  · exact Or.inl (natChars_all_digit _ _ h)
  · exact Or.inr rfl
  · exact Or.inl (natChars_all_digit _ _ h)

theorem ipStr_ne_nil (ip : IPv4) : ipStr ip ≠ [] := by
  unfold ipStr
  cases hn : natChars ip.o1 with
  | nil => exact absurd hn (natChars_ne_nil _)
  | cons c t => simp

theorem slash_not_mem_ipStr (ip : IPv4) : '/' ∉ ipStr ip := by
  intro h
  rcases ipStr_chars '/' h with h1 | h1
  · simp at h1
  · simp at h1

theorem a_not_mem_ipStr (ip : IPv4) : 'a' ∉ ipStr ip := by
  intro h
  rcases ipStr_chars 'a' h with h1 | h1 <;> simp_all

theorem srcShow_chars {s : SrcNet} :
    ∀ c ∈ srcShow s, c.isDigit = true ∨ c = '.' ∨ c = '/' ∨ c = 'a' ∨ c = 'l' := by
  intro c hc
  unfold srcShow at hc
  by_cases h0 : s.len = 0
  · simp only [h0, if_true, List.mem_cons, List.not_mem_nil, or_false] at hc
    rcases hc with rfl | rfl | rfl <;> simp
  · simp only [h0, if_false] at hc
    by_cases h32 : s.len = 32
    · simp only [h32, if_true] at hc
      rcases ipStr_chars c hc with h | h
      · exact Or.inl h
      · exact Or.inr (Or.inl h)
    · simp only [h32, if_false, List.mem_append, List.mem_cons] at hc
      rcases hc with h | rfl | h
      · rcases ipStr_chars c h with h' | h'
        · exact Or.inl h'
        · exact Or.inr (Or.inl h')
      · exact Or.inr (Or.inr (Or.inl rfl))
      · exact Or.inl (natChars_all_digit _ _ h)

theorem srcShow_no_space {s : SrcNet} : ∀ c ∈ srcShow s, c ≠ ' ' := by
  intro c hc he
  rcases srcShow_chars c hc with h | h | h | h | h <;> (subst he; simp_all)

theorem srcShow_no_f {s : SrcNet} : ∀ c ∈ srcShow s, c ≠ 'f' := by
  intro c hc he
  rcases srcShow_chars c hc with h | h | h | h | h <;> (subst he; simp_all)

theorem srcShow_ne_nil (s : SrcNet) : srcShow s ≠ [] := by
  unfold srcShow
  by_cases h0 : s.len = 0
  · simp [h0]
  · by_cases h32 : s.len = 32
    · simp [h0, h32, ipStr_ne_nil]
    · simp only [h0, h32, if_false]
      cases hn : ipStr s.ip with
      | nil => exact absurd hn (ipStr_ne_nil _)
      | cons c t => simp

theorem srcShow_inj {a b : SrcNet} (h : srcShow a = srcShow b) (ha : a.len ≠ 0) : a = b := by
  have hb : b.len ≠ 0 := by
    intro hb0
    unfold srcShow at h
    simp only [hb0, if_true, ha, if_false] at h
    by_cases h32 : a.len = 32
    · simp only [h32, if_true] at h
      exact a_not_mem_ipStr a.ip (h ▸ (by simp : 'a' ∈ (['a','l','l'] : GoStr)))
    · simp only [h32, if_false] at h
      have hmem : 'a' ∈ ipStr a.ip ++ '/' :: natChars a.len := by
        rw [h]; simp
      simp only [List.mem_append, List.mem_cons] at hmem
      rcases hmem with h' | h' | h'
      · exact a_not_mem_ipStr a.ip h'
      · simp at h'
      · have := natChars_all_digit a.len 'a' h'
        simp at this
  unfold srcShow at h
  simp only [ha, hb, if_false] at h
  by_cases h32a : a.len = 32 <;> by_cases h32b : b.len = 32
  · simp only [h32a, h32b, if_true] at h
    have e : a.ip = b.ip := ipStr_inj h
    have el : a.len = b.len := by rw [h32a, h32b]
    cases a; cases b; simp_all
  · simp only [h32a, h32b, if_true, if_false] at h
    exfalso
    have : '/' ∈ ipStr a.ip := by
      rw [h]; simp
    exact slash_not_mem_ipStr a.ip this
  · simp only [h32a, h32b, if_true, if_false] at h
    exfalso
    have : '/' ∈ ipStr b.ip := by
      rw [← h]; simp
    exact slash_not_mem_ipStr b.ip this
  · simp only [h32a, h32b, if_false] at h
    have h1 := append_sep_inj h (slash_not_mem_ipStr _) (slash_not_mem_ipStr _)
    have e : a.ip = b.ip := ipStr_inj h1.1
    have el : a.len = b.len := natChars_inj h1.2
    cases a; cases b; simp_all

/-! ### Kernel policy-routing rule table model

The kernel state is the list of IPv4 policy-routing rules in listing order
(ascending priority; a newly added rule is inserted after existing rules of
equal priority, as the kernel does).  `ip rule` mutations are modelled
structurally; `ip rule show` renders each rule as the textual line the Go
code parses. -/

structure KRule where
  pri : Nat
  src : SrcNet
  table : Nat
deriving DecidableEq, Repr

abbrev KState := List KRule

/-- One attempted kernel mutation command issued by the engine
(`ip rule add`, `ip rule del`, `conntrack -D`). -/
inductive KEvent
  | addRule (pri : Nat) (table : Nat) (src : SrcNet)
  | delPrio (pri : Nat)
  | delSrc (src : SrcNet)
  | conntrackFlush (src : SrcNet)
deriving DecidableEq, Repr

/-- The line `ip rule show` prints for one rule, e.g.
`2000: from 192.168.2.25 lookup 99`. -/
def ruleLine (r : KRule) : GoStr :=
  (natChars r.pri ++ [':']) ++ ' ' :: (['f','r','o','m'] ++ ' ' ::
    (srcShow r.src ++ ' ' :: (['l','o','o','k','u','p'] ++ ' ' :: natChars r.table)))

/-- Output of `ip rule show`, one line per rule. -/
def ipRuleShow (S : KState) : List GoStr := S.map ruleLine

/-- `ip rule add priority p table t from src`: insert in priority order,
after existing rules of the same priority. -/
def kernelInsert (r : KRule) : KState → KState
  | [] => [r]
  | x :: xs => if x.pri ≤ r.pri then x :: kernelInsert r xs else r :: x :: xs

/-- `ip rule del priority p`: the kernel deletes the first rule matching the
given priority; the command fails (`none`) if no rule matches. -/
def kernelDelPrio (p : Nat) : KState → Option KState
  | [] => none
  | x :: xs => if x.pri = p then some xs else (kernelDelPrio p xs).map (x :: ·)

/-- `ip rule del from src`: the kernel deletes the first rule whose source
selector matches; fails (`none`) if none matches. -/
def kernelDelSrc (s : SrcNet) : KState → Option KState
  | [] => none
  | x :: xs => if x.src = s then some xs else (kernelDelSrc s xs).map (x :: ·)

theorem kernelDelPrio_eq_none {p : Nat} {S : KState} :
    kernelDelPrio p S = none ↔ ∀ r ∈ S, r.pri ≠ p := by
  induction S with
  | nil => simp [kernelDelPrio]
  | cons x xs ih =>
    simp only [kernelDelPrio]
    by_cases h : x.pri = p
    · simp [h]
    · simp only [h, if_false, Option.map_eq_none', ih]
      constructor
      · intro hall r hr
        rcases List.mem_cons.1 hr with rfl | hr
        · exact h
        · exact hall r hr
      · intro hall r hr
        exact hall r (List.mem_cons_of_mem x hr)

theorem kernelDelPrio_eq_some {p : Nat} {S S' : KState}
    (h : kernelDelPrio p S = some S') :
    S' = S.eraseP (fun r => r.pri = p) := by
  induction S generalizing S' with
  | nil => simp [kernelDelPrio] at h
  | cons x xs ih =>
    simp only [kernelDelPrio] at h
    by_cases hx : x.pri = p
    · simp only [hx, if_true, Option.some_inj] at h
      subst h
      simp [List.eraseP_cons, hx]
    · simp only [hx, if_false, Option.map_eq_some'] at h
      rcases h with ⟨t, ht, rfl⟩
      rw [List.eraseP_cons]
      simp [hx, ih ht]

theorem kernelDelSrc_eq_none {s : SrcNet} {S : KState} :
    kernelDelSrc s S = none ↔ ∀ r ∈ S, r.src ≠ s := by
  induction S with
  | nil => simp [kernelDelSrc]
  | cons x xs ih =>
    simp only [kernelDelSrc]
    by_cases h : x.src = s
    · simp [h]
    · simp only [h, if_false, Option.map_eq_none', ih]
      constructor
      · intro hall r hr
        rcases List.mem_cons.1 hr with rfl | hr
        · exact h
        · exact hall r hr
      · intro hall r hr
        exact hall r (List.mem_cons_of_mem x hr)

theorem kernelDelSrc_eq_some {s : SrcNet} {S S' : KState}
    (h : kernelDelSrc s S = some S') :
    S' = S.eraseP (fun r => r.src = s) := by
  induction S generalizing S' with
  | nil => simp [kernelDelSrc] at h
  | cons x xs ih =>
    simp only [kernelDelSrc] at h
    by_cases hx : x.src = s
    · simp only [hx, if_true, Option.some_inj] at h
      subst h
      simp [List.eraseP_cons, hx]
    · simp only [hx, if_false, Option.map_eq_some'] at h
      rcases h with ⟨t, ht, rfl⟩
      rw [List.eraseP_cons]
      simp [hx, ih ht]

theorem kernelDelPrio_sublist {p : Nat} {S S' : KState}
    (h : kernelDelPrio p S = some S') : S'.Sublist S := by
  rw [kernelDelPrio_eq_some h]
  exact List.eraseP_sublist S

theorem kernelDelSrc_sublist {s : SrcNet} {S S' : KState}
    (h : kernelDelSrc s S = some S') : S'.Sublist S := by
  rw [kernelDelSrc_eq_some h]
  exact List.eraseP_sublist S

/-! ### Parsing facts about rendered rule lines -/

theorem priField_no_space (p : Nat) : ∀ c ∈ natChars p ++ [':'], c ≠ ' ' := by
  intro c hc
  rcases List.mem_append.1 hc with h | h
  · exact (isDigit_ne (natChars_all_digit p c h)).2.1
  · simp only [List.mem_singleton] at h
    subst h; simp

theorem tblField_no_space (t : Nat) : ∀ c ∈ natChars t, c ≠ ' ' :=
  fun c hc => (isDigit_ne (natChars_all_digit t c hc)).2.1

theorem goFields_ruleLine (r : KRule) :
    goFields (ruleLine r) =
      [natChars r.pri ++ [':'], ['f','r','o','m'], srcShow r.src,
       ['l','o','o','k','u','p'], natChars r.table] := by
  unfold ruleLine
  rw [goFields_word _ _ (by simp [natChars_ne_nil]) (priField_no_space r.pri)]
  rw [goFields_word _ _ (by simp) (by intro c hc; simp at hc; rcases hc with rfl | rfl | rfl | rfl <;> simp)]
  rw [goFields_word _ _ (srcShow_ne_nil r.src) srcShow_no_space]
  rw [goFields_word _ _ (by simp)
    (by intro c hc; simp at hc; rcases hc with rfl | rfl | rfl | rfl | rfl | rfl <;> simp)]
  rw [goFields_single _ (natChars_ne_nil r.table) (tblField_no_space r.table)]

/-- Go `strings.TrimSuffix(s, ":")`. -/
def goTrimColon (s : GoStr) : GoStr :=
  if s.getLast? = some ':' then s.dropLast else s

theorem goTrimColon_priField (p : Nat) : goTrimColon (natChars p ++ [':']) = natChars p := by
  unfold goTrimColon
  rw [List.getLast?_concat]
  simp

/-! ### Data model (`internal/models/models.go`)

Metadata fields not read by the reconciliation engine or validation
(description, timestamps, provider interface/gateway) are omitted. -/

structure InternetProvider where
  id : GoStr
  name : GoStr
  tableID : Nat
deriving DecidableEq, Repr

structure RoutingPolicy where
  id : GoStr
  name : GoStr
  providerID : GoStr
  enabled : Bool
deriving DecidableEq, Repr

/-! ### IPv4 address / CIDR parsing (Go `net.ParseIP` / `net.ParseCIDR`,
IPv4 forms; the modern Go parser rejects leading zeros in octets). -/

def splitOnChar (sep : Char) : GoStr → List GoStr
  | [] => [[]]
  | c :: t =>
    if c = sep then [] :: splitOnChar sep t
    else
      match splitOnChar sep t with
      | [] => [[c]]
      | f :: rest => (c :: f) :: rest

/-- One dotted-decimal octet: nonempty digits, no leading zero, ≤ 255. -/
def parseOctet (f : GoStr) : Option Nat :=
  if f ≠ [] ∧ f.all Char.isDigit ∧ (f.length = 1 ∨ f.head? ≠ some '0') then
    let v := f.foldl (fun acc c => acc * 10 + digitVal c) 0
    if v ≤ 255 then some v else none
  else none

def parseIPv4 (s : GoStr) : Option IPv4 :=
  match splitOnChar '.' s with
  | [f1, f2, f3, f4] =>
    match parseOctet f1, parseOctet f2, parseOctet f3, parseOctet f4 with
    | some a, some b, some c, some d => some ⟨a, b, c, d⟩
    | _, _, _, _ => none
  | _ => none

/-- Prefix-length part of a CIDR: nonempty digits, value at most `bound`. -/
def parseMaskLen (bound : Nat) (s : GoStr) : Option Nat :=
  if s ≠ [] ∧ s.all Char.isDigit then
    let v := s.foldl (fun acc c => acc * 10 + digitVal c) 0
    if v ≤ bound then some v else none
  else none

/-- Split at the first occurrence of `sep`, like Go's `IndexByte` slicing. -/
def splitFirst (sep : Char) : GoStr → Option (GoStr × GoStr)
  | [] => none
  | c :: t =>
    if c = sep then some ([], t)
    else (splitFirst sep t).map (fun ab => (c :: ab.1, ab.2))

def ipToNat (ip : IPv4) : Nat := ((ip.o1 * 256 + ip.o2) * 256 + ip.o3) * 256 + ip.o4

def natToIP (n : Nat) : IPv4 := ⟨n / 2 ^ 24 % 256, n / 2 ^ 16 % 256, n / 2 ^ 8 % 256, n % 256⟩

/-- `ip.Mask(CIDRMask(len, 32))`: zero the host bits. -/
def maskIPv4 (ip : IPv4) (len : Nat) : IPv4 :=
  natToIP (ipToNat ip / 2 ^ (32 - len) * 2 ^ (32 - len))

/-- Go `net.ParseCIDR` on IPv4 notation: `a.b.c.d/len`, base address masked
to the network address. -/
def parseCIDRv4 (s : GoStr) : Option SrcNet :=
  match splitFirst '/' s with
  | none => none
  | some (addr, mask) =>
    match parseIPv4 addr, parseMaskLen 32 mask with
    | some ip, some len => some ⟨maskIPv4 ip len, len⟩
    | _, _ => none

/-- The source-network resolution the manager performs on a policy ID
(manager.go:112-130 and the identical copies): `net.ParseCIDR` first, then
`net.ParseIP` widened to a /32.  IPv4 scope: an IPv6 policy ID drives Go's
separate IPv6 rule table, which is outside the modelled (IPv4) listing, so
here it takes the error path. -/
def parsePolicyID (id : GoStr) : Option SrcNet :=
  match parseCIDRv4 id with
  | some sn => some sn
  | none =>
    match parseIPv4 id with
    | some ip => some ⟨ip, 32⟩
    | none => none

/-! ### Reconciliation engine (`internal/router/manager.go`) -/

/-- manager.go:412-416: priority from CIDR specificity,
`2000 + (32 - ones)`.  Parsed source networks always have `len ≤ 32`. -/
def calculatePriority (srcNet : SrcNet) : Nat := 2000 + (32 - srcNet.len)

/-- The search string `fmt.Sprintf("from %s", srcNet.IP.String())` used by
`checkRoutingRuleExists` and `removeAllRulesForSource`. -/
def fromPat (srcNet : SrcNet) : GoStr := ['f','r','o','m',' '] ++ ipStr srcNet.ip

def checkLines (srcNet : SrcNet) : List GoStr → Bool × Nat × Nat
  | [] => (false, 0, 0)
  | line :: rest =>
    if goContains line (fromPat srcNet) then
      let parts := goFields line
      if parts.length ≥ 4 then
        (true, goAtoiD (goTrimColon (parts.headD [])), goAtoiD (parts.getLastD []))
      else checkLines srcNet rest
    else checkLines srcNet rest

/-- manager.go:419-459: scan `ip rule show` output for the first line
containing `from <bare-IP>` (with at least 4 fields) and return its parsed
priority and table. -/
def checkRoutingRuleExists (S : KState) (srcNet : SrcNet) : Bool × Nat × Nat :=
  checkLines srcNet (ipRuleShow S)

/-- One pass of the inner line scan of `removeAllRulesForSource`
(manager.go:481-509): on each line containing `from <bare-IP>` attempt
`ip rule del from <src/len>`; stop at the first success.  A failed delete
is still an issued command and is recorded. -/
def removeAllScan (srcNet : SrcNet) (S : KState) : List GoStr → Option KState × List KEvent
  | [] => (none, [])
  | line :: rest =>
    if goContains line (fromPat srcNet) then
      if (goFields line).length ≥ 4 then
        match kernelDelSrc srcNet S with
        | some S' => (some S', [KEvent.delSrc srcNet])
        | none =>
          let r := removeAllScan srcNet S rest
          (r.1, KEvent.delSrc srcNet :: r.2)
      else removeAllScan srcNet S rest
    else removeAllScan srcNet S rest

def removeAllLoop (srcNet : SrcNet) : Nat → KState → KState × List KEvent
  | 0, S => (S, [])
  | fuel+1, S =>
    match removeAllScan srcNet S (ipRuleShow S) with
    | (some S', evs) =>
      let r := removeAllLoop srcNet fuel S'
      (r.1, evs ++ r.2)
    | (none, evs) => (S, evs)

/-- manager.go:462-522: repeatedly re-list and delete rules whose line
matches `from <bare-IP>`, one per pass, at most `maxAttempts = 10` passes,
stopping after the first pass that removes nothing. -/
def removeAllRulesForSource (S : KState) (srcNet : SrcNet) : KState × List KEvent :=
  removeAllLoop srcNet 10 S

/-- manager.go:572-583: `conntrack -D --src` is always issued and always
treated as success. -/
def clearConntrack (srcNet : SrcNet) : List KEvent := [KEvent.conntrackFlush srcNet]

/-- manager.go:550-569: `ip rule add priority P table T from SRC` followed
by a conntrack flush. -/
def addRoutingRule (S : KState) (srcNet : SrcNet) (tableID : Nat) : KState × List KEvent :=
  let priority := calculatePriority srcNet
  (kernelInsert ⟨priority, srcNet, tableID⟩ S,
   [KEvent.addRule priority tableID srcNet, KEvent.conntrackFlush srcNet])

/-- manager.go:525-547: delete by the priority reported by
`checkRoutingRuleExists`; on command failure an error is returned and no
conntrack flush happens. -/
def removeRoutingRule (S : KState) (srcNet : SrcNet) : KState × List KEvent × Option GoStr :=
  let ex := checkRoutingRuleExists S srcNet
  if ex.1 then
    match kernelDelPrio ex.2.1 S with
    | some S' => (S', KEvent.delPrio ex.2.1 :: clearConntrack srcNet, none)
    | none => (S, [KEvent.delPrio ex.2.1], some ("failed to remove routing rule").toList)
  else (S, [], none)

/-- manager.go:102-202 `SetupPolicy`: disabled policies get their rules
removed and conntrack flushed; enabled policies are reconciled against the
existing-rule check. -/
def SetupPolicy (S : KState) (policy : RoutingPolicy) (provider : InternetProvider) :
    KState × List KEvent × Option GoStr :=
  if !policy.enabled then
    match parsePolicyID policy.id with
    | none => (S, [], some ("invalid policy ID as source IP/CIDR").toList)
    | some srcNet =>
      let r := removeAllRulesForSource S srcNet
      (r.1, r.2 ++ clearConntrack srcNet, none)
  else
    match parsePolicyID policy.id with
    | none => (S, [], some ("invalid policy ID as source IP/CIDR").toList)
    | some srcNet =>
      let ex := checkRoutingRuleExists S srcNet
      if ex.1 then
        if ex.2.2 = provider.tableID then (S, [], none)
        else
          let r := removeAllRulesForSource S srcNet
          let r' := addRoutingRule r.1 srcNet provider.tableID
          (r'.1, r.2 ++ r'.2, none)
      else
        let r := addRoutingRule S srcNet provider.tableID
        (r.1, r.2, none)

/-- manager.go:205-238 `RemovePolicy`: unconditional single-rule removal by
resolved source network (the provider argument is only logged). -/
def RemovePolicy (S : KState) (policy : RoutingPolicy) : KState × List KEvent × Option GoStr :=
  match parsePolicyID policy.id with
  | none => (S, [], some ("invalid policy ID as source IP/CIDR").toList)
  | some srcNet => removeRoutingRule S srcNet

/-! ### Cleanup passes (`manager.go:586-779`) -/

/-- The first field equal to `from` followed by another field yields the
source field (the `for i, part := range parts` loops). -/
def srcFieldAfterFrom : List GoStr → Option GoStr
  | [] => none
  | f :: rest => if f = ['f','r','o','m'] then rest.head? else srcFieldAfterFrom rest

def inManagedRange (p : Nat) : Prop := 2000 ≤ p ∧ p ≤ 2032

instance (p : Nat) : Decidable (inManagedRange p) := by
  unfold inManagedRange; infer_instance

/-- Append `line` to the group of `key`, creating the group at the end on
first sight.  Go iterates the `sourceRules` map in unspecified order; the
embedding fixes first-insertion order, which every theorem below is
insensitive to. -/
def addToGroup (key line : GoStr) : List (GoStr × List GoStr) → List (GoStr × List GoStr)
  | [] => [(key, [line])]
  | (k, ls) :: rest =>
    if k = key then (k, ls ++ [line]) :: rest else (k, ls) :: addToGroup key line rest

/-- manager.go:709-743: group managed-range rule lines by their source
field. -/
def collectRuleGroups : List GoStr → List (GoStr × List GoStr) → List (GoStr × List GoStr)
  | [], acc => acc
  | line :: rest, acc =>
    match goFields line with
    | [] => collectRuleGroups rest acc
    | p0 :: ps =>
      match goAtoi (goTrimColon p0) with
      | none => collectRuleGroups rest acc
      | some priority =>
        if inManagedRange priority then
          if goContains line ['f','r','o','m'] ∧ goContains line ['l','o','o','k','u','p'] then
            match srcFieldAfterFrom (p0 :: ps) with
            | some srcIP => collectRuleGroups rest (addToGroup srcIP line acc)
            | none => collectRuleGroups rest acc
          else collectRuleGroups rest acc
        else collectRuleGroups rest acc

/-- manager.go:752-768: delete one duplicate line by its parsed priority;
a failed `ip rule del` is logged and skipped. -/
def delByLinePriority (acc : KState × List KEvent) (rule : GoStr) : KState × List KEvent :=
  match goFields rule with
  | [] => acc
  | p0 :: _ =>
    let priority := goAtoiD (goTrimColon p0)
    match kernelDelPrio priority acc.1 with
    | some S' => (S', acc.2 ++ [KEvent.delPrio priority])
    | none => (acc.1, acc.2 ++ [KEvent.delPrio priority])

/-- manager.go:694-779 `cleanupDuplicateRules`: for every source with more
than one managed-range line, keep the first and delete the rest by
priority. -/
def cleanupDuplicateRules (S : KState) : KState × List KEvent :=
  let groups := collectRuleGroups (ipRuleShow S) []
  groups.foldl
    (fun acc g => if g.2.length > 1 then g.2.tail.foldl delByLinePriority acc else acc)
    (S, [])

/-- manager.go:596-617: bare source IPs of every policy whose ID resolves;
note: `activePolicies` is the full policy list, `enabled` is not consulted. -/
def activeSources (policies : List RoutingPolicy) : List GoStr :=
  policies.foldl
    (fun acc p =>
      match parsePolicyID p.id with
      | none => acc
      | some srcNet => acc ++ [ipStr srcNet.ip])
    []

/-- Go `strings.Split(srcIP, "/")[0]`: everything before the first `/`. -/
def beforeSlash : GoStr → GoStr
  | [] => []
  | c :: t => if c = '/' then [] else c :: beforeSlash t

/-- manager.go:620-688: one line of the stale scan; deletes by parsed
priority when the source field matches no active source. -/
def staleStep (active : List GoStr) (acc : KState × List KEvent) (line : GoStr) :
    KState × List KEvent :=
  match goFields line with
  | [] => acc
  | p0 :: ps =>
    match goAtoi (goTrimColon p0) with
    | none => acc
    | some priority =>
      if ¬ inManagedRange priority then acc
      else if pfxB ['0',':'] line ∨ pfxB ['3','2','7','6','6',':'] line ∨
          pfxB ['3','2','7','6','7',':'] line then acc
      else if goContains line ['f','r','o','m'] ∧ goContains line ['l','o','o','k','u','p'] then
        match srcFieldAfterFrom (p0 :: ps) with
        | none => acc
        | some srcIP =>
          if srcIP = [] then acc
          else if srcIP ∈ active then acc
          else if '/' ∈ srcIP ∧ beforeSlash srcIP ∈ active then acc
          else
            match kernelDelPrio priority acc.1 with
            | some S' => (S', acc.2 ++ [KEvent.delPrio priority])
            | none => (acc.1, acc.2 ++ [KEvent.delPrio priority])
      else acc

/-- manager.go:586-691 `cleanupStaleRules`: over a snapshot of the listing,
delete every managed-range rule whose source field matches no resolved
policy source (exactly, or on the IP part before a `/`). -/
def cleanupStaleRules (S : KState) (activePolicies : List RoutingPolicy) :
    KState × List KEvent :=
  (ipRuleShow S).foldl (staleStep (activeSources activePolicies)) (S, [])

/-! ### Full-sync pass (`manager.go:270-317 SyncPolicies`) -/

/-- Go map lookup on the provider map built by insertion in list order
(a later provider with the same ID overwrites an earlier one). -/
def lookupProvider (providers : List InternetProvider) (id : GoStr) : Option InternetProvider :=
  providers.reverse.find? (fun p => p.id == id)

/-- The per-policy loop body of `SyncPolicies` (manager.go:290-302): skip
with a warning when the provider is absent, otherwise run `SetupPolicy`
and drop (log) its error. -/
def syncPoliciesStep (providers : List InternetProvider) (acc : KState × List KEvent)
    (policy : RoutingPolicy) : KState × List KEvent :=
  match lookupProvider providers policy.providerID with
  | some provider =>
    let r := SetupPolicy acc.1 policy provider
    (r.1, acc.2 ++ r.2.1)
  | none => acc

/-- manager.go:270-317 `SyncPolicies`: duplicate cleanup, per-policy
reconciliation (failures logged, never propagated), stale cleanup, then the
log-only validation pass; the function always returns `nil`. -/
def SyncPolicies (S : KState) (policies : List RoutingPolicy)
    (providers : List InternetProvider) : KState × List KEvent × Option GoStr :=
  let r1 := cleanupDuplicateRules S
  let r2 := policies.foldl (syncPoliciesStep providers) (r1.1, [])
  let r3 := cleanupStaleRules r2.1 policies
  (r3.1, r1.2 ++ r2.2 ++ r3.2, none)

/-! ### Full Go IP-address validity (`net.ParseIP` / `net.ParseCIDR`),
needed by `models.Validate`, which accepts IPv6 forms as well. -/

def isHexDigitC (c : Char) : Bool :=
  c.isDigit || ('a' ≤ c && c ≤ 'f') || ('A' ≤ c && c ≤ 'F')

def hexVal (c : Char) : Nat :=
  if c.isDigit then digitVal c
  else if 'a' ≤ c && c ≤ 'f' then c.toNat - 87
  else c.toNat - 55

/-- Scan a run of hex digits, as netip does for one IPv6 field; `none` when
the accumulated value reaches 2^16. -/
def scanHex : GoStr → Nat → Nat → Option (Nat × Nat × GoStr)
  | [], acc, cnt => some (acc, cnt, [])
  | c :: t, acc, cnt =>
    if isHexDigitC c then
      let acc' := acc * 16 + hexVal c
      if acc' > 65535 then none else scanHex t acc' (cnt + 1)
    else some (acc, cnt, c :: t)

/-- Checks run after netip's field loop exits. -/
def v6Finish (i : Nat) (ell : Option Nat) (s : GoStr) : Bool :=
  s = [] && (if i < 16 then ell.isSome else ell.isNone)

/-- The field loop of netip's `parseIPv6`, as a validity check: `i` counts
bytes already produced, `ell` records an elided `::`. -/
def v6Loop : Nat → Nat → Option Nat → GoStr → Bool
  | 0, _, _, _ => false
  | fuel+1, i, ell, s =>
    if 16 ≤ i then v6Finish i ell s
    else
      match scanHex s 0 0 with
      | none => false
      | some (_, off, rest) =>
        if off = 0 then false
        else
          match rest with
          | '.' :: _ =>
            if ell.isNone ∧ i ≠ 12 then false
            else if i + 4 > 16 then false
            else if (parseIPv4 s).isSome then v6Finish (i + 4) ell []
            else false
          | [] => v6Finish (i + 2) ell []
          | ':' :: rest2 =>
            match rest2 with
            | [] => false
            | ':' :: rest3 =>
              if ell.isSome then false
              else if rest3 = [] then v6Finish (i + 2) (some (i + 2)) []
              else v6Loop fuel (i + 2) (some (i + 2)) rest3
            | _ => v6Loop fuel (i + 2) ell rest2
          | _ => false

def parseIPv6valid (s : GoStr) : Bool :=
  match s with
  | ':' :: ':' :: rest =>
    if rest = [] then true
    else v6Loop (rest.length + 1) 0 (some 0) rest
  | _ => v6Loop (s.length + 1) 0 none s

/-- netip's dispatch in `ParseAddr`: the first of `.`, `:`, `%` decides the
family; `%` first (or no marker at all) is invalid. -/
def ipDispatch : GoStr → Option Bool
  | [] => none
  | c :: t =>
    if c = '.' then some true
    else if c = ':' then some false
    else if c = '%' then none
    else ipDispatch t

/-- Go `net.ParseIP(s) != nil`: IPv4 dotted decimal or IPv6 (zone suffixes
rejected by `net.ParseIP`). -/
def goParseIPvalid (s : GoStr) : Bool :=
  match ipDispatch s with
  | some true => (parseIPv4 s).isSome
  | some false => if '%' ∈ s then false else parseIPv6valid s
  | none => false

/-- Go `net.ParseCIDR(s)` succeeds: address part before the first `/` is an
IP of either family, prefix length within the family's bit size. -/
def goParseCIDRvalid (s : GoStr) : Bool :=
  match splitFirst '/' s with
  | none => false
  | some (addr, mask) =>
    if (parseIPv4 addr).isSome then (parseMaskLen 32 mask).isSome
    else if (if '%' ∈ addr then false else (ipDispatch addr = some false) ∧ parseIPv6valid addr) then
      (parseMaskLen 128 mask).isSome
    else false

/-- models.go:60-81 `RoutingPolicy.Validate`: required fields, then the ID
must parse as CIDR notation or as a single IP address. -/
def RoutingPolicy.Validate (p : RoutingPolicy) : Option GoStr :=
  if p.id = [] then some ("policy ID is required").toList
  else if p.name = [] then some ("policy name is required").toList
  else if p.providerID = [] then some ("provider ID is required").toList
  else if goParseCIDRvalid p.id then none
  else if goParseIPvalid p.id then none
  else some ("policy ID must be a valid IP address or CIDR notation").toList

/-! ### Policy watch path (`internal/nats/client.go:345-377 WatchPolicies`
and the sync service's `watchPolicies` handler) -/

inductive KVOp
  | put
  | delete
deriving DecidableEq, Repr

structure SyncCaches where
  providers : List (GoStr × InternetProvider)
  policies : List (GoStr × RoutingPolicy)
deriving DecidableEq, Repr

def cacheUpsert {α : Type} (k : GoStr) (v : α) : List (GoStr × α) → List (GoStr × α)
  | [] => [(k, v)]
  | (k', v') :: rest =>
    if k' = k then (k, v) :: rest else (k', v') :: cacheUpsert k v rest

def cacheRemove {α : Type} (k : GoStr) : List (GoStr × α) → List (GoStr × α)
  | [] => []
  | (k', v') :: rest =>
    if k' = k then rest else (k', v') :: cacheRemove k rest

def cacheLookup {α : Type} (k : GoStr) : List (GoStr × α) → Option α
  | [] => none
  | (k', v') :: rest => if k' = k then some v' else cacheLookup k rest

/-- A call the watch handler makes into the router manager. -/
inductive EngineCall
  | setup (policy : RoutingPolicy) (provider : InternetProvider)
  | remove (policy : RoutingPolicy) (provider : InternetProvider)
deriving DecidableEq, Repr

/-- The sync service's policy watch callback: on put, cache and reconcile
via the cached provider; on delete, the same but through `RemovePolicy` —
and both branches require a non-nil policy. -/
def watchPoliciesCallback (policy? : Option RoutingPolicy) (op : KVOp) (c : SyncCaches) :
    SyncCaches × List EngineCall :=
  match op with
  | .put =>
    match policy? with
    | some policy =>
      let c' := { c with policies := cacheUpsert policy.id policy c.policies }
      match cacheLookup policy.providerID c.providers with
      | none => (c', [])
      | some provider => (c', [EngineCall.setup policy provider])
    | none => (c, [])
  | .delete =>
    match policy? with
    | some policy =>
      let c' := { c with policies := cacheRemove policy.id c.policies }
      match cacheLookup policy.providerID c.providers with
      | none => (c', [])
      | some provider => (c', [EngineCall.remove policy provider])
    | none => (c, [])

/-- client.go:345-377 `WatchPolicies`: for a `policies.`-prefixed key, a
delete operation invokes the callback with a nil policy; a put decodes the
value (decode failure skips the event). -/
def watchPoliciesDispatch (key : GoStr) (op : KVOp) (decoded : Option RoutingPolicy) :
    Option (Option RoutingPolicy × KVOp) :=
  if key.length > 9 ∧ key.take 9 = ("policies.").toList then
    match op with
    | .delete => some (none, KVOp.delete)
    | .put =>
      match decoded with
      | some p => some (some p, KVOp.put)
      | none => none
  else none

/-- One policy KV notification end to end: client dispatch, then the sync
service callback. -/
def deliverPolicyUpdate (key : GoStr) (op : KVOp) (decoded : Option RoutingPolicy)
    (c : SyncCaches) : SyncCaches × List EngineCall :=
  match watchPoliciesDispatch key op decoded with
  | some po => watchPoliciesCallback po.1 po.2 c
  | none => (c, [])

/-! ### Facts about parsing rendered rule lines -/

theorem fromW_chars : ∀ c ∈ (['f','r','o','m'] : GoStr), c ≠ ' ' := by decide

theorem lookupW_chars : ∀ c ∈ (['l','o','o','k','u','p'] : GoStr), c ≠ ' ' := by decide

theorem headD_goFields_ruleLine (r : KRule) :
    (goFields (ruleLine r)).headD [] = natChars r.pri ++ [':'] := by
  rw [goFields_ruleLine]; rfl

theorem getLastD_goFields_ruleLine (r : KRule) :
    (goFields (ruleLine r)).getLastD [] = natChars r.table := by
  rw [goFields_ruleLine]; rfl

/-- The parsed priority of a rendered rule line is the rule's priority. -/
theorem linePri_eq (r : KRule) :
    goAtoi (goTrimColon ((goFields (ruleLine r)).headD [])) = some r.pri := by
  rw [headD_goFields_ruleLine, goTrimColon_priField, goAtoi_natChars]

theorem lineTable_eq (r : KRule) :
    goAtoiD ((goFields (ruleLine r)).getLastD []) = r.table := by
  rw [getLastD_goFields_ruleLine, goAtoiD_natChars]

theorem goFields_ruleLine_length (r : KRule) : (goFields (ruleLine r)).length = 5 := by
  rw [goFields_ruleLine]; rfl

/-- The source field of a rendered line: the first field equal to `from`
is the literal `from` word (the priority field starts with a digit), and
the next field is the rendered source. -/
theorem srcFieldAfterFrom_ruleLine (r : KRule) :
    srcFieldAfterFrom (goFields (ruleLine r)) = some (srcShow r.src) := by
  rw [goFields_ruleLine]
  have hne : natChars r.pri ++ [':'] ≠ (['f','r','o','m'] : GoStr) := by
    intro h
    cases hn : natChars r.pri with
    | nil => exact natChars_ne_nil r.pri hn
    | cons c t =>
      rw [hn] at h
      injection h with hc _
      have := natChars_all_digit r.pri c (by rw [hn]; exact List.mem_cons_self c t)
      rw [hc] at this
      simp at this
  simp only [srcFieldAfterFrom, hne, if_false, if_pos rfl]
  rfl

theorem goContains_ruleLine_from (r : KRule) :
    goContains (ruleLine r) ['f','r','o','m'] = true := by
  rw [goContains_iff]
  exact ⟨natChars r.pri ++ [':', ' '],
    ' ' :: (srcShow r.src ++ ' ' :: (['l','o','o','k','u','p'] ++ ' ' :: natChars r.table)),
    by simp [ruleLine]⟩

theorem goContains_ruleLine_lookup (r : KRule) :
    goContains (ruleLine r) ['l','o','o','k','u','p'] = true := by
  rw [goContains_iff]
  exact ⟨natChars r.pri ++ [':', ' '] ++ ['f','r','o','m',' '] ++ srcShow r.src ++ [' '],
    ' ' :: natChars r.table, by simp [ruleLine]⟩

/-- `strings.HasPrefix(line, "<n>:")` on a rendered line forces the rule's
priority to be exactly `n`. -/
theorem pfxB_priColon (r : KRule) (n : Nat)
    (h : pfxB (natChars n ++ [':']) (ruleLine r) = true) : r.pri = n := by
  rw [pfxB_iff] at h
  rcases h with ⟨w, hw⟩
  unfold ruleLine at hw
  simp only [List.append_assoc, List.singleton_append, List.cons_append] at hw
  have hcolon : ∀ m : Nat, ':' ∉ natChars m := by
    intro m hm
    have := natChars_all_digit m ':' hm
    simp at this
  have := append_sep_inj hw (hcolon r.pri) (hcolon n)
  exact natChars_inj this.1

/-- A list that is a prefix of `v ++ w` and shorter than `v` stays a prefix
of `v`; a space-free prefix cannot extend past `v` when `w` starts with a
space. -/
theorem pfx_stop_at_space {u v w : GoStr} (h : ∃ x, v ++ ' ' :: w = u ++ x)
    (hu : ∀ c ∈ u, c ≠ ' ') : ∃ x, v = u ++ x := by
  induction u generalizing v with
  | nil => exact ⟨v, rfl⟩
  | cons c t ih =>
    rcases h with ⟨x, hx⟩
    cases v with
    | nil =>
      exfalso
      injection hx with hc _
      exact hu c (List.mem_cons_self c t) hc.symm
    | cons a as =>
      injection hx with hc hx'
      have := ih ⟨x, hx'⟩ (fun d hd => hu d (List.mem_cons_of_mem c hd))
      rcases this with ⟨y, hy⟩
      exact ⟨y, by simp [hc, hy]⟩

/-- Occurrences of a pattern starting with a character absent from a
leading segment must occur in the trailing segment. -/
theorem contains_skip_head {pre post pat : GoStr} {c0 : Char}
    (h : goContains (pre ++ post) (c0 :: pat) = true)
    (hpre : ∀ c ∈ pre, c ≠ c0) : goContains post (c0 :: pat) = true := by
  induction pre with
  | nil => simpa using h
  | cons c t ih =>
    rw [List.cons_append] at h
    rw [goContains] at h
    simp only [Bool.or_eq_true] at h
    rcases h with h1 | h1
    · exfalso
      rw [pfxB_iff] at h1
      rcases h1 with ⟨w, hw⟩
      injection hw with hc _
      exact hpre c (List.mem_cons_self c t) hc
    · exact ih h1 (fun d hd => hpre d (List.mem_cons_of_mem c hd))

/-- If the pattern head never occurs at all, the pattern is absent. -/
theorem contains_head_absent {l pat : GoStr} {c0 : Char}
    (h : goContains l (c0 :: pat) = true) : c0 ∈ l := by
  induction l with
  | nil => simp [goContains, pfxB] at h
  | cons c t ih =>
    rw [goContains] at h
    simp only [Bool.or_eq_true] at h
    rcases h with h1 | h1
    · rw [pfxB_iff] at h1
      rcases h1 with ⟨w, hw⟩
      injection hw with hc _
      rw [← hc]
      exact List.mem_cons_self c t
    · exact List.mem_cons_of_mem c (ih h1)

theorem contains_head_unique {t pat : GoStr} {c0 : Char}
    (h : goContains (c0 :: t) (c0 :: pat) = true) (ht : c0 ∉ t) :
    ∃ x, t = pat ++ x := by
  rw [goContains] at h
  simp only [Bool.or_eq_true] at h
  rcases h with h1 | h1
  · rw [pfxB_iff] at h1
    rcases h1 with ⟨w, hw⟩
    injection hw with _ h2
    exact ⟨w, h2⟩
  · exact absurd (contains_head_absent h1) ht

/-- The one-`f` decomposition of a rendered rule line. -/
theorem ruleLine_split (r : KRule) :
    ruleLine r = (natChars r.pri ++ [':', ' ']) ++
      'f' :: ('r' :: 'o' :: 'm' :: ' ' ::
        (srcShow r.src ++ ' ' :: (['l','o','o','k','u','p'] ++ ' ' :: natChars r.table))) := by
  simp [ruleLine]

theorem ruleLine_pre_no_f (r : KRule) : ∀ c ∈ natChars r.pri ++ ([':', ' '] : GoStr), c ≠ 'f' := by
  intro c hc
  rcases List.mem_append.1 hc with h | h
  · exact (isDigit_ne (natChars_all_digit _ _ h)).1
  · simp only [List.mem_cons, List.not_mem_nil, or_false] at h
    rcases h with rfl | rfl <;> simp

theorem ipStr_no_space (ip : IPv4) : ∀ c ∈ ipStr ip, c ≠ ' ' := by
  intro c hc he
  subst he
  rcases ipStr_chars ' ' hc with h | h <;> simp at h

theorem ruleLine_tail_no_f (r : KRule) :
    'f' ∉ ('r' :: 'o' :: 'm' :: ' ' ::
      (srcShow r.src ++ ' ' :: (['l','o','o','k','u','p'] ++ ' ' :: natChars r.table)) : GoStr) := by
  intro hmem
  rcases List.mem_cons.1 hmem with h | hmem
  · simp at h
  rcases List.mem_cons.1 hmem with h | hmem
  · simp at h
  rcases List.mem_cons.1 hmem with h | hmem
  · simp at h
  rcases List.mem_cons.1 hmem with h | hmem
  · simp at h
  rcases List.mem_append.1 hmem with h | hmem
  · exact srcShow_no_f 'f' h rfl
  rcases List.mem_cons.1 hmem with h | hmem
  · simp at h
  rcases List.mem_append.1 hmem with h | hmem
  · simp at h
  rcases List.mem_cons.1 hmem with h | hmem
  · simp at h
  exact (isDigit_ne (natChars_all_digit _ _ hmem)).1 rfl

/-- The check `strings.Contains(line, "from <bare-IP>")` on a rendered line
holds exactly when the bare IP string is a prefix of the rendered source
selector. -/
theorem contains_fromPat_iff (r : KRule) (sn : SrcNet) :
    goContains (ruleLine r) (fromPat sn) = true ↔
      ∃ w, srcShow r.src = ipStr sn.ip ++ w := by
  constructor
  · intro h
    rw [ruleLine_split r] at h
    simp only [fromPat, List.cons_append, List.nil_append] at h
    have h2 := contains_skip_head h (ruleLine_pre_no_f r)
    have h3 := contains_head_unique h2 (ruleLine_tail_no_f r)
    rcases h3 with ⟨x, hx⟩
    injection hx with _ hx; injection hx with _ hx; injection hx with _ hx
    injection hx with _ hx
    exact pfx_stop_at_space ⟨x, hx⟩ (ipStr_no_space sn.ip)
  · rintro ⟨w, hw⟩
    have : ruleLine r = (natChars r.pri ++ [':', ' ']) ++ fromPat sn ++
        (w ++ ' ' :: (['l','o','o','k','u','p'] ++ ' ' :: natChars r.table)) := by
      rw [ruleLine_split r, hw]
      simp [fromPat]
    rw [this]
    exact goContains_of_append _ _ _

/-! ### Claim theorems -/

/-- C7: for every prefix length p in [0, 32] the computed rule priority is
`2000 + (32 - p)`; a /32 yields 2000, a /0 yields 2032, and the priority
number strictly decreases as the prefix length increases. -/
theorem calculatePriority_formula (ip ip' : IPv4) (p q : Nat) (hp : p ≤ 32) (hq : q ≤ 32)
    (hpq : p < q) :
    calculatePriority ⟨ip, p⟩ = 2000 + (32 - p) ∧
    calculatePriority ⟨ip, 32⟩ = 2000 ∧
    calculatePriority ⟨ip, 0⟩ = 2032 ∧
    calculatePriority ⟨ip', q⟩ < calculatePriority ⟨ip, p⟩ := by
  refine ⟨rfl, rfl, rfl, ?_⟩
  unfold calculatePriority
  simp only
  omega

theorem calculatePriority_formula_witness :
    calculatePriority ⟨⟨10,0,0,0⟩, 8⟩ = 2000 + (32 - 8) ∧
    calculatePriority ⟨⟨10,0,0,0⟩, 32⟩ = 2000 ∧
    calculatePriority ⟨⟨10,0,0,0⟩, 0⟩ = 2032 ∧
    calculatePriority ⟨⟨10,0,0,0⟩, 24⟩ < calculatePriority ⟨⟨10,0,0,0⟩, 8⟩ :=
  calculatePriority_formula ⟨10,0,0,0⟩ ⟨10,0,0,0⟩ 8 24 (by decide) (by decide) (by decide)

/-- C10: the existence check matches rule lines by the substring
`from <bare-IP>`: with a listing holding only a rule for 10.0.0.10,
`checkRoutingRuleExists` for the distinct source 10.0.0.1/32 returns true
together with the other rule's priority 2000 and table 55. -/
theorem checkRoutingRuleExists_prefix_confusion :
    checkRoutingRuleExists [⟨2000, ⟨⟨10,0,0,10⟩, 32⟩, 55⟩] ⟨⟨10,0,0,1⟩, 32⟩ =
      (true, 2000, 55) ∧
    (⟨⟨10,0,0,1⟩, 32⟩ : SrcNet) ≠ ⟨⟨10,0,0,10⟩, 32⟩ := by decide

/-- C9 counterexample: validation accepts the policy ID `::1`, which is
neither a single IPv4 address nor IPv4 CIDR notation, so the claimed
IPv4-only acceptance is false (`net.ParseIP` also accepts IPv6 forms). -/
theorem validate_accepts_ipv6 :
    RoutingPolicy.Validate ⟨("::1").toList, ['x'], ['p'], true⟩ = none ∧
    parseIPv4 (("::1").toList) = none ∧
    parseCIDRv4 (("::1").toList) = none := by decide

/-- C9 amended: validation accepts a policy exactly when its ID, name and
providerID are nonempty and the ID parses as an IP address of either
family or as CIDR notation of either family; `not-an-ip` is rejected. -/
theorem validate_iff (p : RoutingPolicy) :
    (RoutingPolicy.Validate p = none ↔
      p.id ≠ [] ∧ p.name ≠ [] ∧ p.providerID ≠ [] ∧
        (goParseCIDRvalid p.id = true ∨ goParseIPvalid p.id = true)) ∧
    RoutingPolicy.Validate ⟨("not-an-ip").toList, ['x'], ['p'], true⟩ ≠ none := by
  constructor
  · unfold RoutingPolicy.Validate
    by_cases h1 : p.id = [] <;> by_cases h2 : p.name = [] <;>
      by_cases h3 : p.providerID = [] <;>
      by_cases h4 : goParseCIDRvalid p.id <;> by_cases h5 : goParseIPvalid p.id <;>
      simp [h1, h2, h3, h4, h5]
  · decide

/-- C6: on a policy delete notification the NATS client invokes the watch
callback with a nil policy, and the sync service's delete branch requires a
non-nil policy, so the cached policy entry is kept and the policy-removal
path is never invoked (the cache update and `RemovePolicy` call the claim
describes are dead code on this path). -/
theorem deliverPolicyUpdate_delete_noop (key : GoStr) (decoded : Option RoutingPolicy)
    (c : SyncCaches) : deliverPolicyUpdate key KVOp.delete decoded c = (c, []) := by
  unfold deliverPolicyUpdate watchPoliciesDispatch
  by_cases h : key.length > 9 ∧ key.take 9 = ("policies.").toList
  · rw [if_pos h]; rfl
  · rw [if_neg h]

/-- C8: the per-policy step of the full-sync pass skips an enabled policy
whose providerID resolves to no provider in the supplied set: the kernel
rule state and the emitted mutation list are both unchanged. -/
theorem syncPoliciesStep_dangling_provider (providers : List InternetProvider)
    (policy : RoutingPolicy) (acc : KState × List KEvent)
    (_henabled : policy.enabled = true)
    (habsent : lookupProvider providers policy.providerID = none) :
    syncPoliciesStep providers acc policy = acc := by
  unfold syncPoliciesStep
  rw [habsent]

theorem syncPoliciesStep_dangling_provider_witness :
    (⟨("10.0.0.9").toList, ['x'], ("gone").toList, true⟩ : RoutingPolicy).enabled = true ∧
    lookupProvider [⟨['p'], ['q'], 5⟩] (("gone").toList) = none ∧
    syncPoliciesStep [⟨['p'], ['q'], 5⟩]
      ([⟨2009, ⟨⟨10,0,0,9⟩, 23⟩, 7⟩], []) ⟨("10.0.0.9").toList, ['x'], ("gone").toList, true⟩ =
      ([⟨2009, ⟨⟨10,0,0,9⟩, 23⟩, 7⟩], []) :=
  ⟨by decide, by decide,
    syncPoliciesStep_dangling_provider _ _ _ (by decide) (by decide)⟩

/-- C5 counterexample: with a first policy whose ID fails to parse (its
provider present), the full-sync pass returns nil instead of the claimed
parse error — the per-policy `SetupPolicy` error is swallowed — while the
remaining policy is still processed and its rule added. -/
theorem syncPolicies_swallows_parse_error :
    (SyncPolicies [] [⟨("not-an-ip").toList, ['b'], ['p'], true⟩,
        ⟨("10.0.0.1").toList, ['a'], ['p'], true⟩] [⟨['p'], ['q'], 5⟩]).2.2 = none ∧
    (SetupPolicy [] ⟨("not-an-ip").toList, ['b'], ['p'], true⟩ ⟨['p'], ['q'], 5⟩).2.2 ≠ none ∧
    (SyncPolicies [] [⟨("not-an-ip").toList, ['b'], ['p'], true⟩,
        ⟨("10.0.0.1").toList, ['a'], ['p'], true⟩] [⟨['p'], ['q'], 5⟩]).1 =
      [⟨2000, ⟨⟨10,0,0,1⟩, 32⟩, 5⟩] := by decide

/-- C5 amended: the full-sync pass always returns nil — a source-network
parse failure on one policy is logged and dropped while the remaining
policies are still processed; no per-item failure of any kind is ever
propagated to the caller. -/
theorem syncPolicies_returns_nil (S : KState) (policies : List RoutingPolicy)
    (providers : List InternetProvider) :
    (SyncPolicies S policies providers).2.2 = none := rfl

/-- C2 counterexample: reconciling a disabled policy for source 10.0.0.1
deletes the rule at priority 50, which lies outside the managed range
[2000, 2032]. -/
theorem setupPolicy_deletes_outside_range :
    (SetupPolicy [⟨50, ⟨⟨10,0,0,1⟩, 32⟩, 5⟩]
        ⟨("10.0.0.1").toList, ['a'], ['p'], false⟩ ⟨['p'], ['q'], 5⟩).1 = [] ∧
    ¬ inManagedRange 50 := by decide

/-- C3 counterexample: with a desired state holding one disabled policy
(resolving against its provider), a second identical full-sync pass still
issues a kernel mutation call — the unconditional conntrack flush of the
disabled-policy path — so the second invocation is not mutation-free. -/
theorem syncPolicies_not_idempotent :
    (SyncPolicies
        (SyncPolicies [] [⟨("10.0.0.1").toList, ['a'], ['p'], false⟩] [⟨['p'], ['q'], 5⟩]).1
        [⟨("10.0.0.1").toList, ['a'], ['p'], false⟩] [⟨['p'], ['q'], 5⟩]).2.1 =
      [KEvent.conntrackFlush ⟨⟨10,0,0,1⟩, 32⟩] := by decide

/-- C4 counterexample: a managed-range rule whose only matching policy is
disabled is NOT deleted by the stale-cleanup pass — the pass builds its
active-source set from every policy that parses, ignoring `enabled`. -/
theorem cleanupStaleRules_keeps_disabled_policy_rule :
    cleanupStaleRules [⟨2000, ⟨⟨10,0,0,1⟩, 32⟩, 5⟩]
        [⟨("10.0.0.1").toList, ['a'], ['p'], false⟩] =
      ([⟨2000, ⟨⟨10,0,0,1⟩, 32⟩, 5⟩], []) := by decide

/-- C1 counterexample: starting from a listing where two sources share
priority 2000 and 10.0.0.1 is duplicated, the full-sync pass ends with two
managed-range rules for source 10.0.0.1: duplicate cleanup deletes by
priority and removes the 10.0.0.2 rule instead of the duplicate. -/
theorem syncPolicies_duplicate_survives :
    (SyncPolicies
        [⟨2000, ⟨⟨10,0,0,2⟩, 32⟩, 5⟩, ⟨2000, ⟨⟨10,0,0,1⟩, 32⟩, 5⟩,
         ⟨2000, ⟨⟨10,0,0,1⟩, 32⟩, 5⟩]
        [⟨("10.0.0.1").toList, ['a'], ("pr").toList, true⟩]
        [⟨("pr").toList, ['q'], 5⟩]).1 =
      [⟨2000, ⟨⟨10,0,0,1⟩, 32⟩, 5⟩, ⟨2000, ⟨⟨10,0,0,1⟩, 32⟩, 5⟩] := by decide

/-! ### Frame lemmas: what each operation can touch -/

theorem filter_eraseP_of_imp {p q : KRule → Bool} (h : ∀ x, p x = true → q x = false) :
    ∀ l : KState, (l.eraseP p).filter q = l.filter q := by
  intro l
  induction l with
  | nil => simp
  | cons x t ih =>
    rw [List.eraseP_cons]
    by_cases hx : p x
    · simp only [hx, cond_true]
      rw [List.filter_cons, h x hx]
      simp
    · simp only [Bool.not_eq_true] at hx
      simp only [hx, cond_false]
      rw [List.filter_cons, List.filter_cons, ih]

theorem eraseP_of_none {p : Nat} {S : KState} (h : kernelDelPrio p S = none) :
    S.eraseP (fun x => x.pri = p) = S := by
  rw [kernelDelPrio_eq_none] at h
  apply List.eraseP_of_forall_not
  intro a ha
  simp [h a ha]

theorem eraseSrc_of_none {sn : SrcNet} {S : KState} (h : kernelDelSrc sn S = none) :
    S.eraseP (fun x => x.src = sn) = S := by
  rw [kernelDelSrc_eq_none] at h
  apply List.eraseP_of_forall_not
  intro a ha
  simp [h a ha]

/-- `delByLinePriority` on a rendered line erases by the rule's priority
and records exactly one delete command. -/
theorem delByLinePriority_spec (acc : KState × List KEvent) (r : KRule) :
    delByLinePriority acc (ruleLine r) =
      (acc.1.eraseP (fun x => x.pri = r.pri), acc.2 ++ [KEvent.delPrio r.pri]) := by
  unfold delByLinePriority
  rw [goFields_ruleLine]
  simp only
  have hpri : goAtoiD (goTrimColon (natChars r.pri ++ [':'])) = r.pri := by
    rw [goTrimColon_priField, goAtoiD_natChars]
  rw [hpri]
  cases hdel : kernelDelPrio r.pri acc.1 with
  | none => rw [eraseP_of_none hdel]
  | some S' => rw [kernelDelPrio_eq_some hdel]

/-- `staleStep` either leaves the accumulator unchanged or erases by an
in-managed-range priority, recording one delete command. -/
theorem staleStep_cases (a : List GoStr) (acc : KState × List KEvent) (line : GoStr) :
    staleStep a acc line = acc ∨
    ∃ p, inManagedRange p ∧
      staleStep a acc line = (acc.1.eraseP (fun x => x.pri = p), acc.2 ++ [KEvent.delPrio p]) := by
  unfold staleStep
  split
  · exact Or.inl rfl
  split
  · exact Or.inl rfl
  rename_i priority hA
  split
  · exact Or.inl rfl
  rename_i hR
  split
  · exact Or.inl rfl
  split
  · split
    · exact Or.inl rfl
    rename_i srcIP hsf
    split
    · exact Or.inl rfl
    split
    · exact Or.inl rfl
    split
    · exact Or.inl rfl
    refine Or.inr ⟨priority, not_not.mp hR, ?_⟩
    split
    · rename_i S' hdel
      rw [kernelDelPrio_eq_some hdel]
    · rename_i hdel
      rw [eraseP_of_none hdel]
  · exact Or.inl rfl

def notInRangeB (r : KRule) : Bool := !(decide (inManagedRange r.pri))

theorem staleFold_frame (a : List GoStr) :
    ∀ (lines : List GoStr) (acc : KState × List KEvent),
      (lines.foldl (staleStep a) acc).1.filter notInRangeB = acc.1.filter notInRangeB ∧
      ∀ e ∈ (lines.foldl (staleStep a) acc).2,
        e ∈ acc.2 ∨ ∃ p, e = KEvent.delPrio p ∧ inManagedRange p := by
  intro lines
  induction lines with
  | nil => intro acc; exact ⟨rfl, fun e he => Or.inl he⟩
  | cons l t ih =>
    intro acc
    rw [List.foldl_cons]
    rcases staleStep_cases a acc l with h | ⟨p, hp, h⟩
    · rw [h]; exact ih acc
    · rw [h]
      have ih' := ih (acc.1.eraseP (fun x => x.pri = p), acc.2 ++ [KEvent.delPrio p])
      constructor
      · rw [ih'.1]
        simp only
        apply filter_eraseP_of_imp
        intro x hx
        simp only [decide_eq_true_eq] at hx
        simp [notInRangeB, hx ▸ hp]
      · intro e he
        rcases ih'.2 e he with h2 | h2
        · rcases List.mem_append.1 h2 with h3 | h3
          · exact Or.inl h3
          · simp only [List.mem_singleton] at h3
            exact Or.inr ⟨p, h3, hp⟩
        · exact Or.inr h2

theorem cleanupStaleRules_frame (S : KState) (ps : List RoutingPolicy) :
    (cleanupStaleRules S ps).1.filter notInRangeB = S.filter notInRangeB ∧
    ∀ e ∈ (cleanupStaleRules S ps).2, ∃ p, e = KEvent.delPrio p ∧ inManagedRange p := by
  unfold cleanupStaleRules
  have h := staleFold_frame (activeSources ps) (ipRuleShow S) (S, [])
  refine ⟨h.1, fun e he => ?_⟩
  rcases h.2 e he with h2 | h2
  · simp at h2
  · exact h2

/-! ### Duplicate cleanup: group structure over rendered listings -/

/-- `collectRuleGroups` specialised to a rendered listing: it groups the
lines of managed-range rules by their rendered source. -/
def groupsOf : List KRule → List (GoStr × List GoStr) → List (GoStr × List GoStr)
  | [], acc => acc
  | r :: rest, acc =>
    if inManagedRange r.pri then groupsOf rest (addToGroup (srcShow r.src) (ruleLine r) acc)
    else groupsOf rest acc

theorem collectRuleGroups_eq (T : List KRule) :
    ∀ acc, collectRuleGroups (ipRuleShow T) acc = groupsOf T acc := by
  induction T with
  | nil => intro acc; rfl
  | cons r rest ih =>
    intro acc
    show collectRuleGroups (ruleLine r :: ipRuleShow rest) acc = _
    unfold collectRuleGroups
    rw [goFields_ruleLine]
    simp only
    have hpri : goAtoi (goTrimColon (natChars r.pri ++ [':'])) = some r.pri := by
      rw [goTrimColon_priField, goAtoi_natChars]
    rw [hpri]
    unfold groupsOf
    by_cases hR : inManagedRange r.pri
    · simp only [hR, if_true]
      have hC : goContains (ruleLine r) ['f','r','o','m'] = true ∧
          goContains (ruleLine r) ['l','o','o','k','u','p'] = true :=
        ⟨goContains_ruleLine_from r, goContains_ruleLine_lookup r⟩
      rw [if_pos hC]
      have hsf := srcFieldAfterFrom_ruleLine r
      rw [goFields_ruleLine] at hsf
      rw [hsf]
      exact ih _
    · simp only [hR, if_false]
      exact ih _

/-- Every line stored in the groups of a rendered listing is the line of a
managed-range rule. -/
def lineOK (l : GoStr) : Prop := ∃ r : KRule, l = ruleLine r ∧ inManagedRange r.pri

theorem addToGroup_lines {key line : GoStr} {acc : List (GoStr × List GoStr)} :
    ∀ g ∈ addToGroup key line acc, ∀ l ∈ g.2,
      (∃ g' ∈ acc, l ∈ g'.2) ∨ l = line := by
  induction acc with
  | nil =>
    intro g hg l hl
    simp only [addToGroup, List.mem_singleton] at hg
    subst hg
    simp only [List.mem_singleton] at hl
    exact Or.inr hl
  | cons kv rest ih =>
    intro g hg l hl
    unfold addToGroup at hg
    by_cases hk : kv.1 = key
    · rw [if_pos hk] at hg
      rcases List.mem_cons.1 hg with rfl | hg
      · rcases List.mem_append.1 hl with h | h
        · exact Or.inl ⟨kv, List.mem_cons_self kv rest, h⟩
        · simp only [List.mem_singleton] at h
          exact Or.inr h
      · exact Or.inl ⟨g, List.mem_cons_of_mem kv hg, hl⟩
    · rw [if_neg hk] at hg
      rcases List.mem_cons.1 hg with rfl | hg
      · exact Or.inl ⟨kv, List.mem_cons_self kv rest, hl⟩
      · rcases ih g hg l hl with ⟨g', hg', hl'⟩ | h
        · exact Or.inl ⟨g', List.mem_cons_of_mem kv hg', hl'⟩
        · exact Or.inr h

theorem groupsOf_lines (T : List KRule) :
    ∀ acc, (∀ g ∈ acc, ∀ l ∈ g.2, lineOK l) →
      ∀ g ∈ groupsOf T acc, ∀ l ∈ g.2, lineOK l := by
  induction T with
  | nil => intro acc hacc; exact hacc
  | cons r rest ih =>
    intro acc hacc
    unfold groupsOf
    by_cases hR : inManagedRange r.pri
    · rw [if_pos hR]
      apply ih
      intro g hg l hl
      rcases addToGroup_lines g hg l hl with ⟨g', hg', hl'⟩ | h
      · exact hacc g' hg' l hl'
      · exact ⟨r, h, hR⟩
    · rw [if_neg hR]
      exact ih acc hacc

/-- The duplicate-deletion folds over group lines: they erase only by
managed-range priorities and preserve rules outside the managed range. -/
theorem delFold_frame :
    ∀ (ls : List GoStr) (acc : KState × List KEvent), (∀ l ∈ ls, lineOK l) →
      (ls.foldl delByLinePriority acc).1.filter notInRangeB = acc.1.filter notInRangeB ∧
      ∀ e ∈ (ls.foldl delByLinePriority acc).2,
        e ∈ acc.2 ∨ ∃ p, e = KEvent.delPrio p ∧ inManagedRange p := by
  intro ls
  induction ls with
  | nil => intro acc _; exact ⟨rfl, fun e he => Or.inl he⟩
  | cons l t ih =>
    intro acc hok
    rcases hok l (List.mem_cons_self l t) with ⟨r, rfl, hr⟩
    rw [List.foldl_cons, delByLinePriority_spec]
    have ih' := ih (acc.1.eraseP (fun x => x.pri = r.pri), acc.2 ++ [KEvent.delPrio r.pri])
      (fun l' hl' => hok l' (List.mem_cons_of_mem _ hl'))
    constructor
    · rw [ih'.1]
      simp only
      apply filter_eraseP_of_imp
      intro x hx
      simp only [decide_eq_true_eq] at hx
      simp [notInRangeB, hx ▸ hr]
    · intro e he
      rcases ih'.2 e he with h2 | h2
      · rcases List.mem_append.1 h2 with h3 | h3
        · exact Or.inl h3
        · simp only [List.mem_singleton] at h3
          exact Or.inr ⟨r.pri, h3, hr⟩
      · exact Or.inr h2

theorem dupGroupsFold_frame :
    ∀ (gs : List (GoStr × List GoStr)) (acc : KState × List KEvent),
      (∀ g ∈ gs, ∀ l ∈ g.2, lineOK l) →
      ((gs.foldl (fun acc g => if g.2.length > 1 then g.2.tail.foldl delByLinePriority acc
          else acc) acc).1.filter notInRangeB = acc.1.filter notInRangeB ∧
       ∀ e ∈ (gs.foldl (fun acc g => if g.2.length > 1 then g.2.tail.foldl delByLinePriority acc
          else acc) acc).2,
        e ∈ acc.2 ∨ ∃ p, e = KEvent.delPrio p ∧ inManagedRange p) := by
  intro gs
  induction gs with
  | nil => intro acc _; exact ⟨rfl, fun e he => Or.inl he⟩
  | cons g t ih =>
    intro acc hok
    rw [List.foldl_cons]
    by_cases hlen : g.2.length > 1
    · rw [if_pos hlen]
      have htail : ∀ l ∈ g.2.tail, lineOK l := fun l hl =>
        hok g (List.mem_cons_self g t) l (List.mem_of_mem_tail hl)
      have h1 := delFold_frame g.2.tail acc htail
      have ih' := ih (g.2.tail.foldl delByLinePriority acc)
        (fun g' hg' => hok g' (List.mem_cons_of_mem g hg'))
      constructor
      · rw [ih'.1, h1.1]
      · intro e he
        rcases ih'.2 e he with h2 | h2
        · rcases h1.2 e h2 with h3 | h3
          · exact Or.inl h3
          · exact Or.inr h3
        · exact Or.inr h2
    · rw [if_neg hlen]
      exact ih acc (fun g' hg' => hok g' (List.mem_cons_of_mem g hg'))

theorem cleanupDuplicateRules_frame (S : KState) :
    (cleanupDuplicateRules S).1.filter notInRangeB = S.filter notInRangeB ∧
    ∀ e ∈ (cleanupDuplicateRules S).2, ∃ p, e = KEvent.delPrio p ∧ inManagedRange p := by
  unfold cleanupDuplicateRules
  rw [collectRuleGroups_eq]
  have hok : ∀ g ∈ groupsOf S [], ∀ l ∈ g.2, lineOK l :=
    groupsOf_lines S [] (by simp)
  have h := dupGroupsFold_frame (groupsOf S []) (S, []) hok
  refine ⟨h.1, fun e he => ?_⟩
  rcases h.2 e he with h2 | h2
  · simp at h2
  · exact h2

def notSrcB (sn : SrcNet) (r : KRule) : Bool := !(decide (r.src = sn))

theorem removeAllScan_spec (sn : SrcNet) (S : KState) :
    ∀ lines, ((removeAllScan sn S lines).1 = none ∨
        (removeAllScan sn S lines).1 = some (S.eraseP (fun x => x.src = sn))) ∧
      ∀ e ∈ (removeAllScan sn S lines).2, e = KEvent.delSrc sn := by
  intro lines
  induction lines with
  | nil => exact ⟨Or.inl rfl, by simp [removeAllScan]⟩
  | cons l t ih =>
    unfold removeAllScan
    by_cases h1 : goContains l (fromPat sn)
    · rw [if_pos h1]
      by_cases h2 : (goFields l).length ≥ 4
      · rw [if_pos h2]
        cases hdel : kernelDelSrc sn S with
        | some S' =>
          refine ⟨Or.inr ?_, ?_⟩
          · rw [kernelDelSrc_eq_some hdel]
          · simp
        | none =>
          refine ⟨?_, ?_⟩
          · rcases ih.1 with h | h
            · exact Or.inl (by simpa using h)
            · exact Or.inr (by simpa using h)
          · intro e he
            simp only at he
            rcases List.mem_cons.1 he with rfl | he
            · rfl
            · exact ih.2 e he
      · rw [if_neg h2]; exact ih
    · rw [if_neg h1]; exact ih

theorem removeAllLoop_spec (sn : SrcNet) :
    ∀ (fuel : Nat) (S : KState),
      (removeAllLoop sn fuel S).1.filter (notSrcB sn) = S.filter (notSrcB sn) ∧
      (removeAllLoop sn fuel S).1.Sublist S ∧
      ∀ e ∈ (removeAllLoop sn fuel S).2, e = KEvent.delSrc sn := by
  intro fuel
  induction fuel with
  | zero => intro S; exact ⟨rfl, List.Sublist.refl S, by simp [removeAllLoop]⟩
  | succ f ih =>
    intro S
    unfold removeAllLoop
    have hscan := removeAllScan_spec sn S (ipRuleShow S)
    rcases hres : removeAllScan sn S (ipRuleShow S) with ⟨res, evs⟩
    rw [hres] at hscan
    cases res with
    | some S' =>
      rcases hscan.1 with h | h
      · simp at h
      · simp only [Option.some_inj] at h
        subst h
        have ih' := ih (S.eraseP (fun x => x.src = sn))
        have hsub : (S.eraseP (fun x => x.src = sn)).Sublist S := List.eraseP_sublist S
        refine ⟨?_, ?_, ?_⟩
        · show (removeAllLoop sn f _).1.filter (notSrcB sn) = _
          rw [ih'.1]
          exact filter_eraseP_of_imp (fun x hx => by
            simp only [decide_eq_true_eq] at hx
            simp [notSrcB, hx]) S
        · exact ih'.2.1.trans hsub
        · intro e he
          rcases List.mem_append.1 he with h2 | h2
          · exact hscan.2 e h2
          · exact ih'.2.2 e h2
    | none =>
      exact ⟨rfl, List.Sublist.refl S, fun e he => hscan.2 e he⟩

theorem removeAllRulesForSource_frame (S : KState) (sn : SrcNet) :
    (removeAllRulesForSource S sn).1.filter (notSrcB sn) = S.filter (notSrcB sn) ∧
    (removeAllRulesForSource S sn).1.Sublist S ∧
    ∀ e ∈ (removeAllRulesForSource S sn).2, e = KEvent.delSrc sn :=
  removeAllLoop_spec sn 10 S

/-- The add commands any `SetupPolicy` run issues carry a priority computed
by `calculatePriority`, which always lies in [2000, 2032]. -/
theorem calculatePriority_inRange (sn : SrcNet) : inManagedRange (calculatePriority sn) := by
  unfold calculatePriority inManagedRange
  omega

theorem setupPolicy_adds (S : KState) (policy : RoutingPolicy) (provider : InternetProvider) :
    ∀ p t s, KEvent.addRule p t s ∈ (SetupPolicy S policy provider).2.1 → inManagedRange p := by
  intro p t s hmem
  unfold SetupPolicy at hmem
  by_cases hen : !policy.enabled
  · rw [if_pos hen] at hmem
    cases hparse : parsePolicyID policy.id with
    | none => rw [hparse] at hmem; simp at hmem
    | some sn =>
      rw [hparse] at hmem
      simp only at hmem
      rcases List.mem_append.1 hmem with h | h
      · have := (removeAllRulesForSource_frame S sn).2.2 _ h
        cases this
      · simp [clearConntrack] at h
  · rw [if_neg hen] at hmem
    cases hparse : parsePolicyID policy.id with
    | none => rw [hparse] at hmem; simp at hmem
    | some sn =>
      rw [hparse] at hmem
      simp only at hmem
      by_cases hex : (checkRoutingRuleExists S sn).1
      · rw [if_pos hex] at hmem
        by_cases htb : (checkRoutingRuleExists S sn).2.2 = provider.tableID
        · rw [if_pos htb] at hmem; simp at hmem
        · rw [if_neg htb] at hmem
          simp only at hmem
          rcases List.mem_append.1 hmem with h | h
          · have := (removeAllRulesForSource_frame S sn).2.2 _ h
            cases this
          · unfold addRoutingRule at h
            simp only [List.mem_cons, List.not_mem_nil, or_false] at h
            rcases h with h | h
            · injection h with h1 _ _
              exact h1 ▸ calculatePriority_inRange sn
            · cases h
      · rw [if_neg hex] at hmem
        unfold addRoutingRule at hmem
        simp only [List.mem_cons, List.not_mem_nil, or_false] at hmem
        rcases hmem with h | h
        · injection h with h1 _ _
          exact h1 ▸ calculatePriority_inRange sn
        · cases h

theorem syncPoliciesFold_adds (providers : List InternetProvider) :
    ∀ (policies : List RoutingPolicy) (acc : KState × List KEvent),
      (∀ p t s, KEvent.addRule p t s ∈ acc.2 → inManagedRange p) →
      ∀ p t s, KEvent.addRule p t s ∈ (policies.foldl (syncPoliciesStep providers) acc).2 →
        inManagedRange p := by
  intro policies
  induction policies with
  | nil => intro acc hacc; exact hacc
  | cons pol t ih =>
    intro acc hacc p t' s hmem
    rw [List.foldl_cons] at hmem
    refine ih _ ?_ p t' s hmem
    intro p' t'' s' h'
    unfold syncPoliciesStep at h'
    cases hlk : lookupProvider providers pol.providerID with
    | none => rw [hlk] at h'; exact hacc p' t'' s' h'
    | some provider =>
      rw [hlk] at h'
      simp only at h'
      rcases List.mem_append.1 h' with h2 | h2
      · exact hacc p' t'' s' h2
      · exact setupPolicy_adds acc.1 pol provider p' t'' s' h2

theorem length_le_eraseP_succ (p : KRule → Bool) :
    ∀ l : KState, l.length ≤ (l.eraseP p).length + 1 := by
  intro l
  induction l with
  | nil => simp
  | cons x t ih =>
    rw [List.eraseP_cons]
    by_cases hx : p x
    · simp [hx]
    · simp only [Bool.not_eq_true] at hx
      simp only [hx, cond_false, List.length_cons]
      omega

/-- C2 amended: no engine operation ever adds a rule outside [2000, 2032];
the duplicate- and stale-cleanup passes delete only managed-range rules
(rules outside the range, including the defaults at 0, 32766, 32767,
survive them unchanged); `removeAllRulesForSource` — the deletion path of
per-policy reconciliation — deletes only rules whose source selector is
exactly the policy's resolved source network (which may sit at an
out-of-range priority, as the counterexample shows); and policy removal
deletes at most one rule. -/
theorem engine_mutation_frame (S : KState) (policies : List RoutingPolicy)
    (providers : List InternetProvider) (policy : RoutingPolicy)
    (provider : InternetProvider) (sn : SrcNet) :
    (∀ p t s, KEvent.addRule p t s ∈ (SyncPolicies S policies providers).2.1 →
      inManagedRange p) ∧
    (∀ p t s, KEvent.addRule p t s ∈ (SetupPolicy S policy provider).2.1 →
      inManagedRange p) ∧
    (cleanupDuplicateRules S).1.filter notInRangeB = S.filter notInRangeB ∧
    (cleanupStaleRules S policies).1.filter notInRangeB = S.filter notInRangeB ∧
    (removeAllRulesForSource S sn).1.filter (notSrcB sn) = S.filter (notSrcB sn) ∧
    (RemovePolicy S policy).1.Sublist S ∧
    S.length ≤ (RemovePolicy S policy).1.length + 1 := by
  refine ⟨?_, setupPolicy_adds S policy provider, (cleanupDuplicateRules_frame S).1,
    (cleanupStaleRules_frame S policies).1, (removeAllRulesForSource_frame S sn).1, ?_, ?_⟩
  · intro p t s hmem
    unfold SyncPolicies at hmem
    simp only at hmem
    rcases List.mem_append.1 hmem with h | h
    · rcases List.mem_append.1 h with h2 | h2
      · rcases (cleanupDuplicateRules_frame S).2 _ h2 with ⟨q, hq, _⟩
        cases hq
      · exact syncPoliciesFold_adds providers policies _ (by simp) p t s h2
    · rcases (cleanupStaleRules_frame _ policies).2 _ h with ⟨q, hq, _⟩
      cases hq
  · unfold RemovePolicy
    cases hparse : parsePolicyID policy.id with
    | none => exact List.Sublist.refl S
    | some sn' =>
      unfold removeRoutingRule
      dsimp only
      by_cases hex : (checkRoutingRuleExists S sn').1
      · rw [if_pos hex]
        cases hdel : kernelDelPrio (checkRoutingRuleExists S sn').2.1 S
        next => exact List.Sublist.refl S
        next S' => exact kernelDelPrio_sublist hdel
      · rw [if_neg hex]
  · unfold RemovePolicy
    cases hparse : parsePolicyID policy.id with
    | none => simp
    | some sn' =>
      unfold removeRoutingRule
      dsimp only
      by_cases hex : (checkRoutingRuleExists S sn').1
      · rw [if_pos hex]
        cases hdel : kernelDelPrio (checkRoutingRuleExists S sn').2.1 S
        next => simp
        next S' =>
          show S.length ≤ S'.length + 1
          rw [kernelDelPrio_eq_some hdel]
          exact length_le_eraseP_succ _ S
      · rw [if_neg hex]
        simp

/-! ### Stale cleanup as a filter -/

/-- The keep-condition the claim describes, corrected to what the code
implements: a rule survives the stale pass when it is outside the managed
range, or when its source IP portion (the bare IP, with any `/len`
stripped; `from all` rules have none) equals the bare IP of some resolved
policy source — enabled or not. -/
def staleKeepB (a : List GoStr) (r : KRule) : Bool :=
  !(decide (inManagedRange r.pri)) ||
    (decide (r.src.len ≠ 0) && decide (ipStr r.src.ip ∈ a))

theorem activeSources_shape (ps : List RoutingPolicy) :
    ∀ s ∈ activeSources ps, ∃ ip : IPv4, s = ipStr ip := by
  unfold activeSources
  suffices h : ∀ acc, (∀ s ∈ acc, ∃ ip : IPv4, s = ipStr ip) →
      ∀ s ∈ ps.foldl (fun acc p =>
        match parsePolicyID p.id with
        | none => acc
        | some srcNet => acc ++ [ipStr srcNet.ip]) acc, ∃ ip : IPv4, s = ipStr ip by
    exact h [] (by simp)
  induction ps with
  | nil => intro acc hacc; exact hacc
  | cons p t ih =>
    intro acc hacc
    rw [List.foldl_cons]
    cases hp : parsePolicyID p.id with
    | none => exact ih acc hacc
    | some srcNet =>
      apply ih
      intro s hs
      rcases List.mem_append.1 hs with h | h
      · exact hacc s h
      · simp only [List.mem_singleton] at h
        exact ⟨srcNet.ip, h⟩

theorem beforeSlash_stop (rest : GoStr) :
    ∀ w : GoStr, '/' ∉ w → beforeSlash (w ++ '/' :: rest) = w := by
  intro w
  induction w with
  | nil => intro _; simp [beforeSlash]
  | cons c t iht =>
    intro hw
    have hc : c ≠ '/' := fun he => hw (he ▸ List.mem_cons_self c t)
    rw [List.cons_append, beforeSlash, if_neg hc,
      iht (fun hm => hw (List.mem_cons_of_mem c hm))]

theorem beforeSlash_ipStr (ip : IPv4) (rest : GoStr) :
    beforeSlash (ipStr ip ++ '/' :: rest) = ipStr ip :=
  beforeSlash_stop rest (ipStr ip) (slash_not_mem_ipStr ip)

theorem all_not_in_active {a : List GoStr} (hA : ∀ s ∈ a, ∃ ip : IPv4, s = ipStr ip) :
    (['a','l','l'] : GoStr) ∉ a := by
  intro hmem
  rcases hA _ hmem with ⟨ip, hip⟩
  exact a_not_mem_ipStr ip (hip ▸ (by simp : 'a' ∈ (['a','l','l'] : GoStr)))

theorem slashed_not_in_active {a : List GoStr} (hA : ∀ s ∈ a, ∃ ip : IPv4, s = ipStr ip)
    (ip : IPv4) (rest : GoStr) : (ipStr ip ++ '/' :: rest) ∉ a := by
  intro hmem
  rcases hA _ hmem with ⟨ip', hip⟩
  exact slash_not_mem_ipStr ip' (hip ▸ (by simp : '/' ∈ ipStr ip ++ '/' :: rest))

/-- On a rendered line, the stale step is: keep when `staleKeepB`, else
erase by the rule's priority and log one delete. -/
theorem staleStep_ruleLine {a : List GoStr} (hA : ∀ s ∈ a, ∃ ip : IPv4, s = ipStr ip)
    (acc : KState × List KEvent) (r : KRule) :
    staleStep a acc (ruleLine r) =
      if staleKeepB a r then acc
      else (acc.1.eraseP (fun x => x.pri = r.pri), acc.2 ++ [KEvent.delPrio r.pri]) := by
  unfold staleStep
  rw [goFields_ruleLine]
  simp only
  have hpri : goAtoi (goTrimColon (natChars r.pri ++ [':'])) = some r.pri := by
    rw [goTrimColon_priField, goAtoi_natChars]
  rw [hpri]
  dsimp only
  by_cases hR : inManagedRange r.pri
  · rw [if_neg (not_not_intro hR)]
    have hpfx : ¬ (pfxB ['0',':'] (ruleLine r) = true ∨
        pfxB ['3','2','7','6','6',':'] (ruleLine r) = true ∨
        pfxB ['3','2','7','6','7',':'] (ruleLine r) = true) := by
      rintro (h | h | h)
      · have : r.pri = 0 := pfxB_priColon r 0 (by exact h)
        rcases hR with ⟨h1, _⟩; omega
      · have : r.pri = 32766 := pfxB_priColon r 32766 (by exact h)
        rcases hR with ⟨_, h2⟩; omega
      · have : r.pri = 32767 := pfxB_priColon r 32767 (by exact h)
        rcases hR with ⟨_, h2⟩; omega
    rw [if_neg hpfx]
    rw [if_pos ⟨goContains_ruleLine_from r, goContains_ruleLine_lookup r⟩]
    have hsf := srcFieldAfterFrom_ruleLine r
    rw [goFields_ruleLine] at hsf
    rw [hsf]
    dsimp only
    rw [if_neg (srcShow_ne_nil r.src)]
    have hkeep : staleKeepB a r =
        (decide (r.src.len ≠ 0) && decide (ipStr r.src.ip ∈ a)) := by
      simp [staleKeepB, hR]
    by_cases h0 : r.src.len = 0
    · have hshow : srcShow r.src = ['a','l','l'] := by simp [srcShow, h0]
      rw [hshow]
      rw [if_neg (all_not_in_active hA)]
      rw [if_neg (by
        rintro ⟨hsl, _⟩
        simp at hsl)]
      rw [if_neg (by rw [hkeep]; simp [h0])]
      cases hdel : kernelDelPrio r.pri acc.1 with
      | none => rw [eraseP_of_none hdel]
      | some S' => rw [kernelDelPrio_eq_some hdel]
    · by_cases h32 : r.src.len = 32
      · have hshow : srcShow r.src = ipStr r.src.ip := by simp [srcShow, h0, h32]
        rw [hshow]
        by_cases hin : ipStr r.src.ip ∈ a
        · rw [if_pos hin, if_pos (by rw [hkeep]; simp [h0, hin])]
        · rw [if_neg hin]
          rw [if_neg (by
            rintro ⟨hsl, _⟩
            exact slash_not_mem_ipStr r.src.ip hsl)]
          rw [if_neg (by rw [hkeep]; simp [hin])]
          cases hdel : kernelDelPrio r.pri acc.1 with
          | none => rw [eraseP_of_none hdel]
          | some S' => rw [kernelDelPrio_eq_some hdel]
      · have hshow : srcShow r.src = ipStr r.src.ip ++ '/' :: natChars r.src.len := by
          simp [srcShow, h0, h32]
        rw [hshow]
        rw [if_neg (slashed_not_in_active hA r.src.ip (natChars r.src.len))]
        by_cases hin : ipStr r.src.ip ∈ a
        · rw [if_pos ⟨by simp, by rw [beforeSlash_ipStr]; exact hin⟩]
          rw [if_pos (by rw [hkeep]; simp [h0, hin])]
        · rw [if_neg (by
            rintro ⟨_, hbs⟩
            rw [beforeSlash_ipStr] at hbs
            exact hin hbs)]
          rw [if_neg (by rw [hkeep]; simp [hin])]
          cases hdel : kernelDelPrio r.pri acc.1 with
          | none => rw [eraseP_of_none hdel]
          | some S' => rw [kernelDelPrio_eq_some hdel]
  · rw [if_pos hR, if_pos (by simp [staleKeepB, hR])]

/-- Abstract form of the stale pass over a snapshot `T`. -/
def pruneStale (a : List GoStr) (T : List KRule) (Sc : KState) : KState :=
  T.foldl (fun Sc r =>
    if staleKeepB a r then Sc else Sc.eraseP (fun x => x.pri = r.pri)) Sc

theorem staleFold_eq {a : List GoStr} (hA : ∀ s ∈ a, ∃ ip : IPv4, s = ipStr ip) :
    ∀ (T : List KRule) (acc : KState × List KEvent),
      ((ipRuleShow T).foldl (staleStep a) acc).1 = pruneStale a T acc.1 := by
  intro T
  induction T with
  | nil => intro acc; rfl
  | cons r rest ih =>
    intro acc
    show ((ruleLine r :: ipRuleShow rest).foldl (staleStep a) acc).1 = _
    rw [List.foldl_cons, staleStep_ruleLine hA]
    unfold pruneStale
    rw [List.foldl_cons]
    by_cases hk : staleKeepB a r
    · rw [if_pos hk, if_pos hk]
      exact ih acc
    · rw [if_neg hk, if_neg hk]
      exact ih _

def delMark (a : List GoStr) (T : List KRule) (x : KRule) : Bool :=
  T.any (fun t => !staleKeepB a t && decide (t.pri = x.pri))

/-- Erasing the (unique) rule with a given in-range priority commutes with
the filter that excludes priorities marked by the head rule. -/
theorem eraseP_filter_head {a : List GoStr} {r : KRule} {T' : List KRule} :
    ∀ Sc : KState,
      (∀ x ∈ Sc, x.pri = r.pri → x = r) →
      (Sc.filter (fun x => decide (inManagedRange x.pri))).Pairwise (fun x y => x.pri ≠ y.pri) →
      inManagedRange r.pri →
      staleKeepB a r = false →
      (Sc.eraseP (fun x => x.pri = r.pri)).filter
          (fun x => staleKeepB a x || !(delMark a T' x)) =
        Sc.filter (fun x => staleKeepB a x || !(delMark a (r :: T') x)) := by
  intro Sc
  induction Sc with
  | nil => intro _ _ _ _; rfl
  | cons x Sc' ih =>
    intro huniq hdist hR hkr
    have hdist' : (Sc'.filter (fun x => decide (inManagedRange x.pri))).Pairwise
        (fun x y => x.pri ≠ y.pri) := by
      rw [List.filter_cons] at hdist
      by_cases hx : decide (inManagedRange x.pri) = true
      · rw [if_pos hx] at hdist
        exact hdist.tail
      · rw [if_neg (by simpa using hx)] at hdist
        exact hdist
    by_cases hxp : x.pri = r.pri
    · have hxr : x = r := huniq x (List.mem_cons_self x Sc') hxp
      subst hxr
      have herase : (x :: Sc').eraseP (fun y => y.pri = x.pri) = Sc' := by
        rw [List.eraseP_cons]; simp
      rw [herase]
      rw [List.filter_cons]
      have hmark : delMark a (x :: T') x = true := by
        unfold delMark
        rw [List.any_cons]
        simp [hkr]
      rw [if_neg (by simp [hkr, hmark])]
      apply List.filter_congr
      intro y hy
      have hyne : y.pri ≠ x.pri := by
        intro he
        have hyx : y = x := huniq y (List.mem_cons_of_mem x hy) (he.trans hxp)
        subst hyx
        rw [List.filter_cons] at hdist
        rw [if_pos (by simpa using hR)] at hdist
        have := (List.pairwise_cons.1 hdist).1 y
          (List.mem_filter.2 ⟨hy, by simpa using hR⟩)
        exact this rfl
      unfold delMark
      rw [List.any_cons]
      simp only [hkr, Bool.not_false, Bool.true_and]
      have hdy : decide (x.pri = y.pri) = false := by
        simp only [decide_eq_false_iff_not]
        exact fun he => hyne he.symm
      rw [hdy]
      simp
    · have herase : (x :: Sc').eraseP (fun y => y.pri = r.pri) =
          x :: Sc'.eraseP (fun y => y.pri = r.pri) := by
        rw [List.eraseP_cons]; simp [hxp]
      rw [herase]
      rw [List.filter_cons, List.filter_cons]
      have hmark : delMark a (r :: T') x = delMark a T' x := by
        unfold delMark
        rw [List.any_cons]
        have hd : decide (r.pri = x.pri) = false := by
          simp only [decide_eq_false_iff_not]
          exact fun he => hxp he.symm
        simp [hd]
      rw [hmark]
      rw [ih (fun y hy hp => huniq y (List.mem_cons_of_mem x hy) hp) hdist' hR hkr]

theorem pruneStale_filter {a : List GoStr} :
    ∀ (T : List KRule) (Sc : KState),
      (∀ t ∈ T, inManagedRange t.pri → ∀ x ∈ Sc, x.pri = t.pri → x = t) →
      (Sc.filter (fun x => decide (inManagedRange x.pri))).Pairwise
        (fun x y => x.pri ≠ y.pri) →
      pruneStale a T Sc = Sc.filter (fun x => staleKeepB a x || !(delMark a T x)) := by
  intro T
  induction T with
  | nil =>
    intro Sc _ _
    unfold pruneStale
    rw [List.foldl_nil]
    have : ∀ x ∈ Sc, (staleKeepB a x || !(delMark a [] x)) = true := by
      intro x _
      simp [delMark]
    rw [List.filter_eq_self.2 this]
  | cons r T' ih =>
    intro Sc huniq hdist
    unfold pruneStale
    rw [List.foldl_cons]
    by_cases hk : staleKeepB a r
    · rw [if_pos hk]
      have := ih Sc (fun t ht => huniq t (List.mem_cons_of_mem r ht)) hdist
      unfold pruneStale at this
      rw [this]
      apply List.filter_congr
      intro x _
      unfold delMark
      rw [List.any_cons]
      simp [hk]
    · rw [if_neg hk]
      have hR : inManagedRange r.pri := by
        by_contra hcon
        simp [staleKeepB, hcon] at hk
      have huniq1 : ∀ x ∈ Sc, x.pri = r.pri → x = r :=
        fun x hx hp => huniq r (List.mem_cons_self r T') hR x hx hp
      have hsub : (Sc.eraseP (fun x => x.pri = r.pri)).Sublist Sc := List.eraseP_sublist Sc
      have hdist' : ((Sc.eraseP (fun x => x.pri = r.pri)).filter
          (fun x => decide (inManagedRange x.pri))).Pairwise (fun x y => x.pri ≠ y.pri) :=
        hdist.sublist (hsub.filter _)
      have huniq' : ∀ t ∈ T', inManagedRange t.pri →
          ∀ x ∈ Sc.eraseP (fun x => x.pri = r.pri), x.pri = t.pri → x = t :=
        fun t ht hRt x hx hp =>
          huniq t (List.mem_cons_of_mem r ht) hRt x (hsub.mem hx) hp
      have := ih (Sc.eraseP (fun x => x.pri = r.pri)) huniq' hdist'
      unfold pruneStale at this
      rw [this]
      exact eraseP_filter_head Sc huniq1 hdist hR (by simpa using hk)

/-- C4 amended: provided the managed-range rules of the starting listing
have pairwise distinct priorities, the stale-cleanup pass produces exactly
the filter keeping every rule outside [2000, 2032] and every managed-range
rule whose source IP portion (bare IP, `/len` stripped) equals the bare IP
of some policy's resolved source network — enabled **or disabled** (the
pass ignores the enabled flag, which is the corrected part); in particular
rules outside the managed range are untouched. -/
theorem cleanupStaleRules_deletes_exactly (S : KState) (ps : List RoutingPolicy)
    (hd : (S.filter (fun x => decide (inManagedRange x.pri))).Pairwise
      (fun x y => x.pri ≠ y.pri)) :
    (cleanupStaleRules S ps).1 = S.filter (staleKeepB (activeSources ps)) := by
  have hA := activeSources_shape ps
  unfold cleanupStaleRules
  rw [staleFold_eq hA S (S, [])]
  have huniq : ∀ t ∈ S, inManagedRange t.pri → ∀ x ∈ S, x.pri = t.pri → x = t := by
    intro t ht hRt x hx hp
    by_contra hne
    have hxf : x ∈ S.filter (fun x => decide (inManagedRange x.pri)) :=
      List.mem_filter.2 ⟨hx, by simp [hp ▸ hRt]⟩
    have htf : t ∈ S.filter (fun x => decide (inManagedRange x.pri)) :=
      List.mem_filter.2 ⟨ht, by simp [hRt]⟩
    have hsymm : Symmetric (fun (x y : KRule) => x.pri ≠ y.pri) :=
      fun x y h he => h he.symm
    exact hd.forall hsymm hxf htf hne hp
  rw [pruneStale_filter S S huniq hd]
  apply List.filter_congr
  intro x hx
  by_cases hk : staleKeepB (activeSources ps) x
  · simp [hk]
  · have hmark : delMark (activeSources ps) S x = true := by
      unfold delMark
      rw [List.any_eq_true]
      exact ⟨x, hx, by simp [hk]⟩
    simp [hk, hmark]

theorem cleanupStaleRules_deletes_exactly_witness :
    (([⟨2000, ⟨⟨10,0,0,1⟩, 32⟩, 5⟩, ⟨2008, ⟨⟨10,0,0,0⟩, 24⟩, 7⟩,
       ⟨32766, ⟨⟨0,0,0,0⟩, 0⟩, 253⟩] : KState).filter
        (fun x => decide (inManagedRange x.pri))).Pairwise (fun x y => x.pri ≠ y.pri) ∧
    (cleanupStaleRules
        [⟨2000, ⟨⟨10,0,0,1⟩, 32⟩, 5⟩, ⟨2008, ⟨⟨10,0,0,0⟩, 24⟩, 7⟩,
         ⟨32766, ⟨⟨0,0,0,0⟩, 0⟩, 253⟩]
        [⟨("10.0.0.0/24").toList, ['a'], ['p'], false⟩]).1 =
      ([⟨2000, ⟨⟨10,0,0,1⟩, 32⟩, 5⟩, ⟨2008, ⟨⟨10,0,0,0⟩, 24⟩, 7⟩,
        ⟨32766, ⟨⟨0,0,0,0⟩, 0⟩, 253⟩] : KState).filter
        (staleKeepB (activeSources [⟨("10.0.0.0/24").toList, ['a'], ['p'], false⟩])) :=
  ⟨by decide, cleanupStaleRules_deletes_exactly _ _ (by decide)⟩

/-! ### Duplicate cleanup on rule level -/

def addToGroupR (key : GoStr) (r : KRule) : List (GoStr × List KRule) → List (GoStr × List KRule)
  | [] => [(key, [r])]
  | (k, rs) :: rest =>
    if k = key then (k, rs ++ [r]) :: rest else (k, rs) :: addToGroupR key r rest

def groupsR : List KRule → List (GoStr × List KRule) → List (GoStr × List KRule)
  | [], acc => acc
  | r :: rest, acc =>
    if inManagedRange r.pri then groupsR rest (addToGroupR (srcShow r.src) r acc)
    else groupsR rest acc

def mapG (gs : List (GoStr × List KRule)) : List (GoStr × List GoStr) :=
  gs.map (fun g => (g.1, g.2.map ruleLine))

theorem addToGroup_mapG (key : GoStr) (r : KRule) :
    ∀ acc, addToGroup key (ruleLine r) (mapG acc) = mapG (addToGroupR key r acc) := by
  intro acc
  induction acc with
  | nil => rfl
  | cons kv rest ih =>
    unfold mapG at *
    rw [List.map_cons]
    unfold addToGroup addToGroupR
    by_cases hk : kv.1 = key
    · rw [if_pos hk, if_pos hk]
      simp
    · rw [if_neg hk, if_neg hk]
      rw [List.map_cons]
      rw [ih]

theorem groupsOf_mapG (T : List KRule) :
    ∀ acc, groupsOf T (mapG acc) = mapG (groupsR T acc) := by
  induction T with
  | nil => intro acc; rfl
  | cons r rest ih =>
    intro acc
    unfold groupsOf groupsR
    by_cases hR : inManagedRange r.pri
    · rw [if_pos hR, if_pos hR, addToGroup_mapG, ih]
    · rw [if_neg hR, if_neg hR, ih]

def erasePris (ps : List Nat) (Sc : KState) : KState :=
  ps.foldl (fun Sc p => Sc.eraseP (fun x => x.pri = p)) Sc

theorem delFold_lines_state (rs : List KRule) :
    ∀ acc : KState × List KEvent,
      ((rs.map ruleLine).foldl delByLinePriority acc).1 = erasePris (rs.map (·.pri)) acc.1 := by
  induction rs with
  | nil => intro acc; rfl
  | cons r rest ih =>
    intro acc
    rw [List.map_cons, List.foldl_cons, delByLinePriority_spec]
    unfold erasePris
    rw [List.map_cons, List.foldl_cons]
    exact ih _

def dupDelPris (gs : List (GoStr × List KRule)) : List Nat :=
  gs.foldr (fun g acc => (if g.2.length > 1 then g.2.tail.map (·.pri) else []) ++ acc) []

theorem erasePris_append (a b : List Nat) (Sc : KState) :
    erasePris (a ++ b) Sc = erasePris b (erasePris a Sc) := by
  unfold erasePris
  rw [List.foldl_append]

theorem dupFold_state (gs : List (GoStr × List KRule)) :
    ∀ acc : KState × List KEvent,
      ((mapG gs).foldl (fun acc g => if g.2.length > 1 then g.2.tail.foldl delByLinePriority acc
          else acc) acc).1 = erasePris (dupDelPris gs) acc.1 := by
  induction gs with
  | nil => intro acc; rfl
  | cons g rest ih =>
    intro acc
    have hcons : mapG (g :: rest) = (g.1, g.2.map ruleLine) :: mapG rest := rfl
    rw [hcons, List.foldl_cons]
    have hr : dupDelPris (g :: rest) =
        (if g.2.length > 1 then g.2.tail.map (·.pri) else []) ++ dupDelPris rest := rfl
    rw [hr, erasePris_append]
    by_cases hl : g.2.length > 1
    · have hl' : ((g.1, g.2.map ruleLine) : GoStr × List GoStr).2.length > 1 := by
        simpa using hl
      rw [if_pos hl', if_pos hl]
      have htail : (g.2.map ruleLine).tail = g.2.tail.map ruleLine := by
        cases g.2 with
        | nil => rfl
        | cons x xs => rfl
      rw [htail, ih, delFold_lines_state]
    · rw [if_neg (by simpa using hl), if_neg hl]
      exact ih acc

theorem cleanupDuplicateRules_state (S : KState) :
    (cleanupDuplicateRules S).1 = erasePris (dupDelPris (groupsR S [])) S := by
  unfold cleanupDuplicateRules
  rw [collectRuleGroups_eq]
  have h0 : groupsOf S [] = mapG (groupsR S []) := groupsOf_mapG S []
  rw [h0]
  exact dupFold_state (groupsR S []) (S, [])

/-! ### Group contents are exactly the managed-range rules per rendered
source -/

def groupRules (k : GoStr) : List (GoStr × List KRule) → List KRule
  | [] => []
  | (k', rs) :: rest => if k' = k then rs else groupRules k rest

theorem groupRules_addToGroupR (k key : GoStr) (r : KRule) :
    ∀ acc, groupRules k (addToGroupR key r acc) =
      groupRules k acc ++ (if key = k then [r] else []) := by
  intro acc
  induction acc with
  | nil =>
    unfold addToGroupR groupRules
    by_cases hk : key = k
    · rw [if_pos hk, if_pos hk]
      simp [groupRules]
    · rw [if_neg hk, if_neg hk]
      simp [groupRules]
  | cons kv rest ih =>
    rcases kv with ⟨k', rs⟩
    unfold addToGroupR
    by_cases h1 : k' = key
    · rw [if_pos h1]
      unfold groupRules
      by_cases h2 : k' = k
      · rw [if_pos h2, if_pos h2]
        rw [show key = k from h1 ▸ h2]
        simp
      · rw [if_neg h2, if_neg h2]
        rw [if_neg (fun he => h2 (h1.trans he))]
        simp
    · rw [if_neg h1]
      unfold groupRules
      by_cases h2 : k' = k
      · rw [if_pos h2, if_pos h2]
        rw [if_neg (fun he => h1 (h2.trans he.symm))]
        simp
      · rw [if_neg h2, if_neg h2]
        exact ih

theorem groupRules_groupsR (k : GoStr) (T : List KRule) :
    ∀ acc, groupRules k (groupsR T acc) =
      groupRules k acc ++
        T.filter (fun r => decide (inManagedRange r.pri) && decide (srcShow r.src = k)) := by
  induction T with
  | nil => intro acc; simp [groupsR]
  | cons r rest ih =>
    intro acc
    unfold groupsR
    rw [List.filter_cons]
    by_cases hR : inManagedRange r.pri
    · rw [if_pos hR, ih, groupRules_addToGroupR]
      by_cases hk : srcShow r.src = k
      · rw [if_pos hk]
        rw [if_pos (by simp [hR, hk])]
        simp
      · rw [if_neg hk]
        rw [if_neg (by simp [hk])]
        simp
    · rw [if_neg hR]
      rw [if_neg (by simp [hR])]
      exact ih acc

theorem groupRules_mem (k : GoStr) :
    ∀ G : List (GoStr × List KRule), groupRules k G ≠ [] → (k, groupRules k G) ∈ G := by
  intro G
  induction G with
  | nil => intro h; simp [groupRules] at h
  | cons kv rest ih =>
    rcases kv with ⟨k', rs⟩
    intro h
    unfold groupRules at h ⊢
    by_cases h2 : k' = k
    · rw [if_pos h2] at h ⊢
      subst h2
      exact List.mem_cons_self _ _
    · rw [if_neg h2] at h ⊢
      exact List.mem_cons_of_mem _ (ih h)

theorem dupDelPris_mem {gs : List (GoStr × List KRule)} {g : GoStr × List KRule}
    (hg : g ∈ gs) (hlen : g.2.length > 1) :
    ∀ p ∈ g.2.tail.map (·.pri), p ∈ dupDelPris gs := by
  induction gs with
  | nil => cases hg
  | cons g' rest ih =>
    intro p hp
    have hstep : dupDelPris (g' :: rest) =
        (if g'.2.length > 1 then g'.2.tail.map (·.pri) else []) ++ dupDelPris rest := rfl
    rw [hstep]
    rcases List.mem_cons.1 hg with rfl | hg'
    · exact List.mem_append.2 (Or.inl (by rw [if_pos hlen]; exact hp))
    · exact List.mem_append.2 (Or.inr (ih hg' p hp))

/-! ### Erasures remove the unique managed-range rule of each priority -/

theorem erasePris_sublist (ps : List Nat) : ∀ Sc : KState, (erasePris ps Sc).Sublist Sc := by
  induction ps with
  | nil => intro Sc; exact List.Sublist.refl Sc
  | cons p rest ih =>
    intro Sc
    unfold erasePris
    rw [List.foldl_cons]
    exact (ih (Sc.eraseP (fun x => x.pri = p))).trans (List.eraseP_sublist Sc)

theorem not_mem_eraseP_unique {t : KRule} {Sc : KState}
    (huniq : ∀ y ∈ Sc, y.pri = t.pri → y = t)
    (hcount : (Sc.filter (fun y => y == t)).length ≤ 1) :
    t ∉ Sc.eraseP (fun x => x.pri = t.pri) := by
  induction Sc with
  | nil => simp
  | cons y Sc' ih =>
    by_cases hy : y.pri = t.pri
    · have hyt : y = t := huniq y (List.mem_cons_self y Sc') hy
      subst hyt
      have herase : (y :: Sc').eraseP (fun x => x.pri = y.pri) = Sc' := by
        rw [List.eraseP_cons]; simp
      rw [herase]
      intro hmem
      rw [List.filter_cons] at hcount
      rw [if_pos (by simp)] at hcount
      have : y ∈ Sc'.filter (fun z => z == y) := List.mem_filter.2 ⟨hmem, by simp⟩
      have hpos : 0 < (Sc'.filter (fun z => z == y)).length := List.length_pos.2 (by
        intro he
        rw [he] at this
        cases this)
      simp only [List.length_cons] at hcount
      omega
    · have herase : (y :: Sc').eraseP (fun x => x.pri = t.pri) =
          y :: Sc'.eraseP (fun x => x.pri = t.pri) := by
        rw [List.eraseP_cons]; simp [hy]
      rw [herase]
      intro hmem
      rcases List.mem_cons.1 hmem with rfl | hmem'
      · exact hy rfl
      · have hcount' : (Sc'.filter (fun z => z == t)).length ≤ 1 := by
          rw [List.filter_cons] at hcount
          by_cases he : (y == t) = true
          · simp only [he, if_true, List.length_cons] at hcount
            omega
          · rw [if_neg (by simpa using he)] at hcount
            exact hcount
        exact ih (fun z hz hp => huniq z (List.mem_cons_of_mem y hz) hp) hcount' hmem'

theorem not_mem_erasePris {t : KRule} :
    ∀ (ps : List Nat) (Sc : KState), t.pri ∈ ps →
      (∀ y ∈ Sc, y.pri = t.pri → y = t) →
      (Sc.filter (fun y => y == t)).length ≤ 1 →
      t ∉ erasePris ps Sc := by
  intro ps
  induction ps with
  | nil => intro Sc h; cases h
  | cons p rest ih =>
    intro Sc hmem huniq hcount
    unfold erasePris
    rw [List.foldl_cons]
    rcases List.mem_cons.1 hmem with heq | hmem'
    · subst heq
      have hout : t ∉ Sc.eraseP (fun x => x.pri = t.pri) :=
        not_mem_eraseP_unique huniq hcount
      intro hin
      exact hout ((erasePris_sublist rest _).mem hin)
    · apply ih _ hmem'
      · intro y hy hp
        exact huniq y ((List.eraseP_sublist Sc).mem hy) hp
      · calc ((Sc.eraseP (fun x => x.pri = p)).filter (fun y => y == t)).length
            ≤ (Sc.filter (fun y => y == t)).length :=
              ((List.eraseP_sublist Sc).filter _).length_le
          _ ≤ 1 := hcount

def inRangeKeyCount (k : GoStr) (Sc : KState) : Nat :=
  (Sc.filter (fun r => decide (inManagedRange r.pri) && decide (srcShow r.src = k))).length

theorem pairwise_count_le {l : List KRule} {x : KRule}
    (h : l.Pairwise (fun a b => a.pri ≠ b.pri)) :
    (l.filter (fun y => y == x)).length ≤ 1 := by
  induction l with
  | nil => simp
  | cons y l' ih =>
    rw [List.filter_cons]
    by_cases hy : (y == x) = true
    · rw [if_pos hy]
      have hyx : y = x := by simpa using hy
      subst hyx
      simp only [List.length_cons]
      have hnot : l'.filter (fun z => z == y) = [] := by
        by_contra hne
        rcases List.exists_mem_of_ne_nil _ hne with ⟨z, hz⟩
        have hz' := List.mem_filter.1 hz
        have hzy : z = y := by simpa using hz'.2
        subst hzy
        exact (List.pairwise_cons.1 h).1 z hz'.1 rfl
      rw [hnot]
      simp
    · rw [if_neg (by simpa using hy)]
      exact ih (List.pairwise_cons.1 h).2

theorem sublist_avoid_tail {l' : KState} {x : KRule} {xs : KState}
    (h : l'.Sublist (x :: xs)) (hav : ∀ y ∈ xs, y ∉ l') : l'.length ≤ 1 := by
  cases l' with
  | nil => simp
  | cons a t =>
    cases t with
    | nil => simp
    | cons b rest =>
      exfalso
      cases h with
      | cons _ h1 =>
        exact hav a (h1.mem (List.mem_cons_self a _)) (List.mem_cons_self a _)
      | cons₂ _ h1 =>
        exact hav b (h1.mem (List.mem_cons_self b _))
          (List.mem_cons_of_mem _ (List.mem_cons_self b _))

/-- Duplicate cleanup under pairwise-distinct managed-range priorities: at
most one managed-range rule per rendered source remains. -/
theorem cleanupDuplicateRules_count (S : KState)
    (hd : (S.filter (fun x => decide (inManagedRange x.pri))).Pairwise
      (fun x y => x.pri ≠ y.pri)) :
    ∀ k, inRangeKeyCount k (cleanupDuplicateRules S).1 ≤ 1 := by
  intro k
  rw [cleanupDuplicateRules_state]
  set φ : KRule → Bool := fun r => decide (inManagedRange r.pri) && decide (srcShow r.src = k)
    with hφ
  set F : KState := S.filter φ with hF
  set D : List Nat := dupDelPris (groupsR S []) with hD
  have hsubS : (erasePris D S).Sublist S := erasePris_sublist D S
  have hsubF : ((erasePris D S).filter φ).Sublist F := hsubS.filter φ
  by_cases hFlen : F.length ≤ 1
  · calc ((erasePris D S).filter φ).length ≤ F.length := hsubF.length_le
      _ ≤ 1 := hFlen
  · push_neg at hFlen
    have hFne : F ≠ [] := by
      intro he
      rw [he] at hFlen
      simp at hFlen
    have hFG : groupRules k (groupsR S []) = F := by
      have := groupRules_groupsR k S []
      simpa [groupRules] using this
    have hmemG : (k, F) ∈ groupsR S [] := hFG ▸ groupRules_mem k (groupsR S []) (by rw [hFG]; exact hFne)
    have hDmem : ∀ p ∈ F.tail.map (·.pri), p ∈ D :=
      dupDelPris_mem hmemG (by simpa using hFlen)
    have htail_not : ∀ t ∈ F.tail, t ∉ erasePris D S := by
      intro t ht
      have htF : t ∈ F := List.mem_of_mem_tail ht
      have htS : t ∈ S := (List.filter_sublist S).mem htF
      have htR : decide (inManagedRange t.pri) = true := by
        have := (List.mem_filter.1 htF).2
        rw [hφ] at this
        exact (Bool.and_eq_true _ _ |>.mp this).1
      apply not_mem_erasePris D S (hDmem t.pri (List.mem_map.2 ⟨t, ht, rfl⟩))
      · intro y hy hp
        by_contra hne
        have hyR : decide (inManagedRange y.pri) = true := by
          rw [hp]
          exact htR
        have hyf : y ∈ S.filter (fun x => decide (inManagedRange x.pri)) :=
          List.mem_filter.2 ⟨hy, hyR⟩
        have htf : t ∈ S.filter (fun x => decide (inManagedRange x.pri)) :=
          List.mem_filter.2 ⟨htS, htR⟩
        have hsymm : Symmetric (fun (x y : KRule) => x.pri ≠ y.pri) :=
          fun x y h he => h he.symm
        exact hd.forall hsymm hyf htf hne hp
      · have h1 : S.filter (fun y => y == t) =
            (S.filter (fun x => decide (inManagedRange x.pri))).filter (fun y => y == t) := by
          rw [List.filter_filter]
          apply List.filter_congr
          intro y _
          by_cases hyt : (y == t) = true
          · have : y = t := by simpa using hyt
            subst this
            simp [htR]
          · simp only [Bool.not_eq_true] at hyt
            simp [hyt]
        rw [h1]
        exact pairwise_count_le hd
    cases hFc : F with
    | nil => exact absurd hFc hFne
    | cons fh ftail =>
      apply @sublist_avoid_tail _ fh ftail (hFc ▸ hsubF)
      intro y hy hmem
      have : y ∉ erasePris D S := htail_not y (by rw [hFc]; exact hy)
      exact this ((List.filter_sublist _).mem hmem)

/-! ### Per-policy reconciliation preserves the one-rule-per-source bound -/

theorem kernelInsert_perm (r : KRule) : ∀ S : KState, (kernelInsert r S).Perm (r :: S) := by
  intro S
  induction S with
  | nil => exact List.Perm.refl _
  | cons x xs ih =>
    unfold kernelInsert
    by_cases h : x.pri ≤ r.pri
    · rw [if_pos h]
      exact (List.Perm.cons x ih).trans (List.Perm.swap r x xs)
    · rw [if_neg h]

theorem filter_length_mono_of_imp {p q : KRule → Bool} (h : ∀ x, p x = true → q x = true) :
    ∀ l : KState, (l.filter p).length ≤ (l.filter q).length := by
  intro l
  induction l with
  | nil => simp
  | cons x t ih =>
    rw [List.filter_cons, List.filter_cons]
    by_cases hx : p x = true
    · rw [if_pos hx, if_pos (h x hx)]
      simpa using ih
    · rw [if_neg (by simpa using hx)]
      by_cases hq : q x = true
      · rw [if_pos hq]
        exact ih.trans (by simp)
      · rw [if_neg (by simpa using hq)]
        exact ih

theorem srcShow_pfx_self (sn : SrcNet) (h : sn.len ≠ 0) :
    ∃ w, srcShow sn = ipStr sn.ip ++ w := by
  unfold srcShow
  rw [if_neg h]
  by_cases h32 : sn.len = 32
  · rw [if_pos h32]
    exact ⟨[], by simp⟩
  · rw [if_neg h32]
    exact ⟨'/' :: natChars sn.len, rfl⟩

theorem checkLines_false {sn : SrcNet} :
    ∀ lines, (checkLines sn lines).1 = false →
      ∀ line ∈ lines, ¬(goContains line (fromPat sn) = true ∧ 4 ≤ (goFields line).length) := by
  intro lines
  induction lines with
  | nil => intro _ line h; cases h
  | cons l t ih =>
    intro hf line hmem
    unfold checkLines at hf
    by_cases h1 : goContains l (fromPat sn) = true
    · rw [if_pos h1] at hf
      by_cases h2 : (goFields l).length ≥ 4
      · rw [if_pos h2] at hf
        simp at hf
      · rw [if_neg h2] at hf
        rcases List.mem_cons.1 hmem with rfl | hmem'
        · rintro ⟨_, hlen⟩
          exact h2 hlen
        · exact ih hf line hmem'
    · rw [if_neg h1] at hf
      rcases List.mem_cons.1 hmem with rfl | hmem'
      · rintro ⟨hc, _⟩
        exact h1 hc
      · exact ih hf line hmem'

theorem check_false_no_exact {Sc : KState} {sn : SrcNet}
    (hf : (checkRoutingRuleExists Sc sn).1 = false) (hlen : sn.len ≠ 0) :
    ∀ r ∈ Sc, r.src ≠ sn := by
  intro r hr heq
  have hline : ruleLine r ∈ ipRuleShow Sc := List.mem_map.2 ⟨r, hr, rfl⟩
  apply checkLines_false (ipRuleShow Sc) hf (ruleLine r) hline
  constructor
  · rw [contains_fromPat_iff]
    rw [heq]
    exact srcShow_pfx_self sn hlen
  · rw [goFields_ruleLine_length r]
    omega

theorem kernelDelSrc_isSome {sn : SrcNet} {S : KState} (h : ∃ r ∈ S, r.src = sn) :
    kernelDelSrc sn S ≠ none := by
  intro hnone
  rw [kernelDelSrc_eq_none] at hnone
  rcases h with ⟨r, hr, he⟩
  exact hnone r hr he

theorem removeAllScan_some {sn : SrcNet} {S : KState} (hex : ∃ r ∈ S, r.src = sn) :
    ∀ lines, (∃ line ∈ lines, goContains line (fromPat sn) = true ∧
        4 ≤ (goFields line).length) →
      (removeAllScan sn S lines).1 = some (S.eraseP (fun x => x.src = sn)) := by
  intro lines
  induction lines with
  | nil => rintro ⟨line, h, _⟩; cases h
  | cons l t ih =>
    rintro ⟨line, hmem, hc, hlen⟩
    unfold removeAllScan
    by_cases h1 : goContains l (fromPat sn) = true
    · rw [if_pos h1]
      by_cases h2 : (goFields l).length ≥ 4
      · rw [if_pos h2]
        cases hdel : kernelDelSrc sn S with
        | none => exact absurd hdel (kernelDelSrc_isSome hex)
        | some S' =>
          simp only
          rw [kernelDelSrc_eq_some hdel]
      · rw [if_neg h2]
        apply ih
        rcases List.mem_cons.1 hmem with rfl | hmem'
        · exact absurd hlen h2
        · exact ⟨line, hmem', hc, hlen⟩
    · rw [if_neg h1]
      apply ih
      rcases List.mem_cons.1 hmem with rfl | hmem'
      · exact absurd hc h1
      · exact ⟨line, hmem', hc, hlen⟩

theorem filter_eraseP_same_length {p : KRule → Bool} :
    ∀ l : KState, (∃ x ∈ l, p x = true) →
      ((l.eraseP p).filter p).length + 1 = (l.filter p).length := by
  intro l
  induction l with
  | nil => rintro ⟨x, h, _⟩; cases h
  | cons y t ih =>
    rintro ⟨x, hmem, hx⟩
    by_cases hy : p y = true
    · have : (y :: t).eraseP p = t := by
        rw [List.eraseP_cons, hy]
        rfl
      rw [this, List.filter_cons, if_pos hy]
      simp
    · have : (y :: t).eraseP p = y :: t.eraseP p := by
        rw [List.eraseP_cons]
        simp only [Bool.not_eq_true] at hy
        rw [hy]
        rfl
      rw [this, List.filter_cons, List.filter_cons,
        if_neg (by simpa using hy), if_neg (by simpa using hy)]
      apply ih
      rcases List.mem_cons.1 hmem with rfl | hmem'
      · exact absurd hx hy
      · exact ⟨x, hmem', hx⟩

theorem removeAllLoop_clears {sn : SrcNet} (hlen0 : sn.len ≠ 0) :
    ∀ (fuel : Nat) (Sc : KState),
      (Sc.filter (fun r => decide (r.src = sn))).length ≤ fuel →
      ((removeAllLoop sn fuel Sc).1.filter (fun r => decide (r.src = sn))).length = 0 := by
  intro fuel
  induction fuel with
  | zero =>
    intro Sc hc
    exact Nat.le_zero.mp hc
  | succ f ih =>
    intro Sc hc
    by_cases hex : ∃ r ∈ Sc, r.src = sn
    · have hline : ∃ line ∈ ipRuleShow Sc, goContains line (fromPat sn) = true ∧
          4 ≤ (goFields line).length := by
        rcases hex with ⟨r, hr, he⟩
        refine ⟨ruleLine r, List.mem_map.2 ⟨r, hr, rfl⟩, ?_, ?_⟩
        · rw [contains_fromPat_iff, he]
          exact srcShow_pfx_self sn hlen0
        · rw [goFields_ruleLine_length r]
          omega
      have hscan := removeAllScan_some hex (ipRuleShow Sc) hline
      rcases hres : removeAllScan sn Sc (ipRuleShow Sc) with ⟨res, evs⟩
      rw [hres] at hscan
      obtain rfl : res = some (Sc.eraseP (fun x => x.src = sn)) := hscan
      unfold removeAllLoop
      rw [hres]
      dsimp only
      apply ih
      have hpos : 0 < (Sc.filter (fun r => decide (r.src = sn))).length := by
        rcases hex with ⟨r, hr, he⟩
        apply List.length_pos.2
        intro hnil
        have : r ∈ Sc.filter (fun r => decide (r.src = sn)) :=
          List.mem_filter.2 ⟨hr, by simp [he]⟩
        rw [hnil] at this
        cases this
      have := filter_eraseP_same_length (p := fun x => decide (x.src = sn)) Sc (by
        rcases hex with ⟨r, hr, he⟩
        exact ⟨r, hr, by simp [he]⟩)
      omega
    · push_neg at hex
      have h0 : (Sc.filter (fun r => decide (r.src = sn))).length = 0 := by
        rw [List.length_eq_zero]
        rw [List.filter_eq_nil_iff]
        intro r hr
        simp [hex r hr]
      have hsub := (removeAllLoop_spec sn (f + 1) Sc).2.1
      have := (hsub.filter (fun r => decide (r.src = sn))).length_le
      omega

/-- At most one managed-range rule per rendered source key (other than
`all`). -/
def keyCountInv (Sc : KState) : Prop :=
  ∀ k, k ≠ (['a','l','l'] : GoStr) → inRangeKeyCount k Sc ≤ 1

/-- Number of rules whose source network is exactly `sn`. -/
def exactCount (sn : SrcNet) (Sc : KState) : Nat :=
  (Sc.filter (fun r => decide (r.src = sn))).length

/-- At most ten rules per exact non-`all` source network: the bound under
which `removeAllRulesForSource` (fuel 10) is guaranteed to clear a source. -/
def exactCountInv (Sc : KState) : Prop :=
  ∀ sn : SrcNet, sn.len ≠ 0 → exactCount sn Sc ≤ 10

theorem inRangeKeyCount_sublist {S' S : KState} (h : S'.Sublist S) (k : GoStr) :
    inRangeKeyCount k S' ≤ inRangeKeyCount k S :=
  (h.filter _).length_le

theorem exactCount_sublist {S' S : KState} (h : S'.Sublist S) (sn : SrcNet) :
    exactCount sn S' ≤ exactCount sn S :=
  (h.filter _).length_le

theorem keyCountInv_sublist {S' S : KState} (h : S'.Sublist S) (hK : keyCountInv S) :
    keyCountInv S' :=
  fun k hk => le_trans (inRangeKeyCount_sublist h k) (hK k hk)

theorem exactCountInv_sublist {S' S : KState} (h : S'.Sublist S) (hX : exactCountInv S) :
    exactCountInv S' :=
  fun sn hsn => le_trans (exactCount_sublist h sn) (hX sn hsn)

theorem inRangeKeyCount_insert_of_ne (r : KRule) (S : KState) (k : GoStr)
    (h : srcShow r.src ≠ k) :
    inRangeKeyCount k (kernelInsert r S) = inRangeKeyCount k S := by
  unfold inRangeKeyCount
  have hp := (kernelInsert_perm r S).filter
    (fun x => decide (inManagedRange x.pri) && decide (srcShow x.src = k))
  rw [hp.length_eq, List.filter_cons, if_neg (by simp [h])]

theorem inRangeKeyCount_insert_le (r : KRule) (S : KState) (k : GoStr) :
    inRangeKeyCount k (kernelInsert r S) ≤ inRangeKeyCount k S + 1 := by
  unfold inRangeKeyCount
  have hp := (kernelInsert_perm r S).filter
    (fun x => decide (inManagedRange x.pri) && decide (srcShow x.src = k))
  rw [hp.length_eq, List.filter_cons]
  by_cases hb : (decide (inManagedRange r.pri) && decide (srcShow r.src = k)) = true
  · rw [if_pos hb]; simp
  · rw [if_neg hb]; simp

theorem exactCount_insert_of_ne (r : KRule) (S : KState) (sn : SrcNet) (h : r.src ≠ sn) :
    exactCount sn (kernelInsert r S) = exactCount sn S := by
  unfold exactCount
  have hp := (kernelInsert_perm r S).filter (fun x => decide (x.src = sn))
  rw [hp.length_eq, List.filter_cons, if_neg (by simp [h])]

theorem exactCount_insert_le (r : KRule) (S : KState) (sn : SrcNet) :
    exactCount sn (kernelInsert r S) ≤ exactCount sn S + 1 := by
  unfold exactCount
  have hp := (kernelInsert_perm r S).filter (fun x => decide (x.src = sn))
  rw [hp.length_eq, List.filter_cons]
  by_cases hb : (decide (r.src = sn)) = true
  · rw [if_pos hb]; simp
  · rw [if_neg hb]; simp

theorem inRangeKeyCount_le_exactCount (sn : SrcNet) (h : sn.len ≠ 0) (S : KState) :
    inRangeKeyCount (srcShow sn) S ≤ exactCount sn S := by
  apply filter_length_mono_of_imp
  intro x hx
  simp only [Bool.and_eq_true, decide_eq_true_eq] at hx
  have := srcShow_inj (a := sn) (b := x.src) hx.2.symm h
  simp only [decide_eq_true_eq]
  exact this.symm

theorem srcShow_ne_all (sn : SrcNet) (h : sn.len ≠ 0) :
    srcShow sn ≠ (['a','l','l'] : GoStr) := by
  intro he
  unfold srcShow at he
  rw [if_neg h] at he
  by_cases h32 : sn.len = 32
  · rw [if_pos h32] at he
    exact a_not_mem_ipStr sn.ip (he ▸ (by simp : 'a' ∈ (['a','l','l'] : GoStr)))
  · rw [if_neg h32] at he
    have hmem : 'a' ∈ ipStr sn.ip ++ '/' :: natChars sn.len := by
      rw [he]; simp
    rcases List.mem_append.1 hmem with hm | hm
    · exact a_not_mem_ipStr sn.ip hm
    · rcases List.mem_cons.1 hm with hm' | hm'
      · simp at hm'
      · have := natChars_all_digit sn.len 'a' hm'
        simp at this

theorem exactCount_eq_zero_of_check_false {Sc : KState} {sn : SrcNet}
    (hf : (checkRoutingRuleExists Sc sn).1 = false) (hlen : sn.len ≠ 0) :
    exactCount sn Sc = 0 := by
  unfold exactCount
  rw [List.length_eq_zero, List.filter_eq_nil_iff]
  intro r hr
  simp [check_false_no_exact hf hlen r hr]

theorem removeAll_exactCount_zero {Sc : KState} {sn : SrcNet} (hlen : sn.len ≠ 0)
    (h10 : exactCount sn Sc ≤ 10) :
    exactCount sn (removeAllRulesForSource Sc sn).1 = 0 := by
  unfold removeAllRulesForSource exactCount
  exact removeAllLoop_clears hlen 10 Sc h10

theorem SetupPolicy_state_cases (Sc : KState) (pol : RoutingPolicy)
    (prov : InternetProvider) :
    (SetupPolicy Sc pol prov).1 = Sc ∨
    (∃ sn, (SetupPolicy Sc pol prov).1 = (removeAllRulesForSource Sc sn).1) ∨
    (∃ sn, (checkRoutingRuleExists Sc sn).1 = false ∧
      (SetupPolicy Sc pol prov).1 =
        kernelInsert ⟨calculatePriority sn, sn, prov.tableID⟩ Sc) ∨
    (∃ sn, (SetupPolicy Sc pol prov).1 =
      kernelInsert ⟨calculatePriority sn, sn, prov.tableID⟩
        (removeAllRulesForSource Sc sn).1) := by
  unfold SetupPolicy
  by_cases hen : !pol.enabled
  · rw [if_pos hen]
    cases hparse : parsePolicyID pol.id with
    | none => exact Or.inl rfl
    | some sn =>
      exact Or.inr (Or.inl ⟨sn, rfl⟩)
  · rw [if_neg hen]
    cases hparse : parsePolicyID pol.id with
    | none => exact Or.inl rfl
    | some sn =>
      simp only
      by_cases hex : (checkRoutingRuleExists Sc sn).1
      · rw [if_pos hex]
        by_cases htb : (checkRoutingRuleExists Sc sn).2.2 = prov.tableID
        · rw [if_pos htb]
          exact Or.inl rfl
        · rw [if_neg htb]
          exact Or.inr (Or.inr (Or.inr ⟨sn, rfl⟩))
      · rw [if_neg hex]
        refine Or.inr (Or.inr (Or.inl ⟨sn, ?_, rfl⟩))
        simpa using hex

theorem insert_inv {B : KState} {sn : SrcNet} (t : Nat)
    (hK : keyCountInv B) (hX : exactCountInv B)
    (h0 : sn.len ≠ 0 → exactCount sn B = 0) :
    keyCountInv (kernelInsert ⟨calculatePriority sn, sn, t⟩ B) ∧
    exactCountInv (kernelInsert ⟨calculatePriority sn, sn, t⟩ B) := by
  constructor
  · intro k hk
    by_cases hlen : sn.len = 0
    · have hne : srcShow sn ≠ k := by
        unfold srcShow
        rw [if_pos hlen]
        exact fun he => hk he.symm
      rw [inRangeKeyCount_insert_of_ne _ _ _ hne]
      exact hK k hk
    · by_cases hkk : srcShow sn = k
      · have h1 := inRangeKeyCount_insert_le ⟨calculatePriority sn, sn, t⟩ B k
        have h2 : inRangeKeyCount k B = 0 := by
          have h3 := inRangeKeyCount_le_exactCount sn hlen B
          rw [hkk] at h3
          have h4 := h0 hlen
          omega
        omega
      · rw [inRangeKeyCount_insert_of_ne _ _ _ hkk]
        exact hK k hk
  · intro sn' hlen'
    by_cases hss : sn = sn'
    · subst hss
      have h1 := exactCount_insert_le ⟨calculatePriority sn, sn, t⟩ B sn
      have h2 := h0 hlen'
      omega
    · rw [exactCount_insert_of_ne _ _ _ hss]
      exact hX sn' hlen'

theorem SetupPolicy_inv (Sc : KState) (pol : RoutingPolicy) (prov : InternetProvider)
    (hK : keyCountInv Sc) (hX : exactCountInv Sc) :
    keyCountInv (SetupPolicy Sc pol prov).1 ∧
    exactCountInv (SetupPolicy Sc pol prov).1 := by
  rcases SetupPolicy_state_cases Sc pol prov with h | ⟨sn, h⟩ | ⟨sn, hf, h⟩ | ⟨sn, h⟩
  · rw [h]; exact ⟨hK, hX⟩
  · rw [h]
    have hsub : (removeAllRulesForSource Sc sn).1.Sublist Sc :=
      (removeAllLoop_spec sn 10 Sc).2.1
    exact ⟨keyCountInv_sublist hsub hK, exactCountInv_sublist hsub hX⟩
  · rw [h]
    exact insert_inv prov.tableID hK hX
      (fun hlen => exactCount_eq_zero_of_check_false hf hlen)
  · rw [h]
    have hsub : (removeAllRulesForSource Sc sn).1.Sublist Sc :=
      (removeAllLoop_spec sn 10 Sc).2.1
    exact insert_inv prov.tableID (keyCountInv_sublist hsub hK)
      (exactCountInv_sublist hsub hX)
      (fun hlen => removeAll_exactCount_zero hlen (hX sn hlen))

theorem syncFold_inv (provs : List InternetProvider) :
    ∀ (ps : List RoutingPolicy) (acc : KState × List KEvent),
      keyCountInv acc.1 → exactCountInv acc.1 →
      keyCountInv (ps.foldl (syncPoliciesStep provs) acc).1 ∧
      exactCountInv (ps.foldl (syncPoliciesStep provs) acc).1 := by
  intro ps
  induction ps with
  | nil => intro acc hK hX; exact ⟨hK, hX⟩
  | cons p t ih =>
    intro acc hK hX
    rw [List.foldl_cons]
    have hstep : keyCountInv (syncPoliciesStep provs acc p).1 ∧
        exactCountInv (syncPoliciesStep provs acc p).1 := by
      unfold syncPoliciesStep
      cases lookupProvider provs p.providerID with
      | none => exact ⟨hK, hX⟩
      | some prov => exact SetupPolicy_inv acc.1 p prov hK hX
    exact ih _ hstep.1 hstep.2

theorem staleFold_sublist (active : List GoStr) :
    ∀ (lines : List GoStr) (acc : KState × List KEvent),
      (lines.foldl (staleStep active) acc).1.Sublist acc.1 := by
  intro lines
  induction lines with
  | nil => intro acc; exact List.Sublist.refl _
  | cons l t ih =>
    intro acc
    rw [List.foldl_cons]
    refine (ih (staleStep active acc l)).trans ?_
    rcases staleStep_cases active acc l with h | ⟨p, _, h⟩
    · rw [h]
    · rw [h]
      exact List.eraseP_sublist _

/-- **C1** (amended): after `SyncPolicies` completes, every source network
other than `all` is referenced by at most one rule in the managed priority
range [2000, 2032] — provided the managed-range rules of the starting listing
have pairwise distinct priorities (deletion is by priority, so colliding
priorities let the duplicate pass delete the wrong rule; see
`syncPolicies_duplicate_survives`) and no source network starts with more than
ten exact-match rules (the pass bound of `removeAllRulesForSource`). -/
theorem syncPolicies_single_rule (S : KState) (ps : List RoutingPolicy)
    (provs : List InternetProvider)
    (hd : (S.filter (fun x => decide (inManagedRange x.pri))).Pairwise
      (fun x y => x.pri ≠ y.pri))
    (h10 : exactCountInv S) :
    ∀ k, k ≠ (['a','l','l'] : GoStr) →
      inRangeKeyCount k (SyncPolicies S ps provs).1 ≤ 1 := by
  intro k hk
  have h1K : keyCountInv (cleanupDuplicateRules S).1 :=
    fun k' _ => cleanupDuplicateRules_count S hd k'
  have h1sub : (cleanupDuplicateRules S).1.Sublist S := by
    rw [cleanupDuplicateRules_state]
    exact erasePris_sublist _ S
  have h1X : exactCountInv (cleanupDuplicateRules S).1 :=
    exactCountInv_sublist h1sub h10
  have h2 := syncFold_inv provs ps ((cleanupDuplicateRules S).1, []) h1K h1X
  have h3 := staleFold_sublist (activeSources ps)
    (ipRuleShow (ps.foldl (syncPoliciesStep provs) ((cleanupDuplicateRules S).1, [])).1)
    ((ps.foldl (syncPoliciesStep provs) ((cleanupDuplicateRules S).1, [])).1, [])
  exact le_trans (inRangeKeyCount_sublist h3 k) (h2.1 k hk)

theorem syncPolicies_single_rule_witness :
    ((([⟨2000, ⟨⟨10,0,0,1⟩, 32⟩, 100⟩, ⟨2001, ⟨⟨10,0,0,1⟩, 32⟩, 100⟩] : KState).filter
        (fun x => decide (inManagedRange x.pri))).Pairwise
      (fun x y => x.pri ≠ y.pri)) ∧
    inRangeKeyCount (srcShow ⟨⟨10,0,0,1⟩, 32⟩)
      (SyncPolicies
        [⟨2000, ⟨⟨10,0,0,1⟩, 32⟩, 100⟩, ⟨2001, ⟨⟨10,0,0,1⟩, 32⟩, 100⟩]
        [⟨['p'], ['p'], ['P','1'], true⟩] [⟨['P','1'], ['p'], 100⟩]).1 ≤ 1 :=
  ⟨by decide,
   syncPolicies_single_rule _ _ _ (by decide)
     (fun sn _ => le_trans (List.length_filter_le _ _) (by decide))
     (srcShow ⟨⟨10,0,0,1⟩, 32⟩) (by decide)⟩

/-! ### Idempotence of the full-sync pass under a well-formed desired state -/

theorem mem_kernelInsert {x r : KRule} {S : KState} :
    x ∈ kernelInsert r S ↔ x = r ∨ x ∈ S := by
  rw [(kernelInsert_perm r S).mem_iff]
  simp

def keysOf (G : List (GoStr × List KRule)) : List GoStr := G.map (fun g => g.1)

theorem keysOf_addToGroupR (key : GoStr) (r : KRule) :
    ∀ acc, keysOf (addToGroupR key r acc) =
      if key ∈ keysOf acc then keysOf acc else keysOf acc ++ [key] := by
  intro acc
  induction acc with
  | nil => simp [addToGroupR, keysOf]
  | cons kv rest ih =>
    rcases kv with ⟨k', rs⟩
    unfold addToGroupR
    by_cases hk : k' = key
    · rw [if_pos hk]
      have hmem : key ∈ keysOf ((k', rs) :: rest) := by
        simp [keysOf, hk.symm]
      rw [if_pos hmem]
      simp [keysOf]
    · rw [if_neg hk]
      have hkeys : keysOf ((k', rs) :: addToGroupR key r rest) =
          k' :: keysOf (addToGroupR key r rest) := rfl
      rw [hkeys, ih]
      have hck : keysOf ((k', rs) :: rest) = k' :: keysOf rest := rfl
      rw [hck]
      by_cases hm : key ∈ keysOf rest
      · rw [if_pos hm,
          if_pos (show key ∈ k' :: keysOf rest from List.mem_cons_of_mem _ hm)]
      · rw [if_neg hm,
          if_neg (by
            rw [List.mem_cons]
            rintro (h | h)
            · exact hk h.symm
            · exact hm h)]
        rw [List.cons_append]

theorem keysOf_nodup_addToGroupR {key : GoStr} {r : KRule} {acc : List (GoStr × List KRule)}
    (h : (keysOf acc).Nodup) : (keysOf (addToGroupR key r acc)).Nodup := by
  rw [keysOf_addToGroupR]
  by_cases hk : key ∈ keysOf acc
  · rw [if_pos hk]; exact h
  · rw [if_neg hk]
    simp [List.nodup_append, h, hk]

theorem groupsR_keys_nodup : ∀ (T : List KRule) (acc : List (GoStr × List KRule)),
    (keysOf acc).Nodup → (keysOf (groupsR T acc)).Nodup := by
  intro T
  induction T with
  | nil => intro acc h; exact h
  | cons r rest ih =>
    intro acc h
    unfold groupsR
    by_cases hR : inManagedRange r.pri
    · rw [if_pos hR]; exact ih _ (keysOf_nodup_addToGroupR h)
    · rw [if_neg hR]; exact ih _ h

theorem mem_group_eq {G : List (GoStr × List KRule)} (hn : (keysOf G).Nodup)
    {g : GoStr × List KRule} (hg : g ∈ G) : groupRules g.1 G = g.2 := by
  induction G with
  | nil => cases hg
  | cons kv rest ih =>
    rcases kv with ⟨k', rs⟩
    have hkeys : keysOf ((k', rs) :: rest) = k' :: keysOf rest := rfl
    rw [hkeys] at hn
    unfold groupRules
    by_cases h2 : k' = g.1
    · rw [if_pos h2]
      rcases List.mem_cons.1 hg with he | hg'
      · rw [he]
      · exfalso
        have hmem : g.1 ∈ keysOf rest := List.mem_map.2 ⟨g, hg', rfl⟩
        exact (List.nodup_cons.1 hn).1 (h2 ▸ hmem)
    · rw [if_neg h2]
      rcases List.mem_cons.1 hg with he | hg'
      · exact absurd (congrArg Prod.fst he).symm h2
      · exact ih (List.nodup_cons.1 hn).2 hg'

theorem groupsR_len_le {S : KState} (hcnt : ∀ k, inRangeKeyCount k S ≤ 1) :
    ∀ g ∈ groupsR S [], g.2.length ≤ 1 := by
  intro g hg
  have hn : (keysOf (groupsR S [])).Nodup := groupsR_keys_nodup S [] (by simp [keysOf])
  have he : groupRules g.1 (groupsR S []) = g.2 := mem_group_eq hn hg
  have hq := groupRules_groupsR g.1 S []
  rw [he] at hq
  have hg2 : g.2 =
      S.filter (fun r => decide (inManagedRange r.pri) && decide (srcShow r.src = g.1)) := by
    simpa [groupRules] using hq
  rw [hg2]
  exact hcnt g.1

theorem foldl_congr_id {α β : Type} {f : α → β → α} :
    ∀ {l : List β}, (∀ a : α, ∀ x ∈ l, f a x = a) → ∀ init, l.foldl f init = init := by
  intro l
  induction l with
  | nil => intro _ init; rfl
  | cons x t ih =>
    intro h init
    rw [List.foldl_cons, h init x (List.mem_cons_self x t)]
    exact ih (fun a y hy => h a y (List.mem_cons_of_mem x hy)) init

theorem cleanupDuplicateRules_noop {S : KState} (hcnt : ∀ k, inRangeKeyCount k S ≤ 1) :
    cleanupDuplicateRules S = (S, []) := by
  unfold cleanupDuplicateRules
  rw [collectRuleGroups_eq]
  have h0 : groupsOf S [] = mapG (groupsR S []) := groupsOf_mapG S []
  rw [h0]
  apply foldl_congr_id
  intro a g hgm
  rcases List.mem_map.1 hgm with ⟨g0, hg0, hge⟩
  have hlen : g.2.length ≤ 1 := by
    rw [← hge]
    simpa using groupsR_len_le hcnt g0 hg0
  rw [if_neg (by omega)]

theorem staleFold_noop {a : List GoStr} (hA : ∀ s ∈ a, ∃ ip : IPv4, s = ipStr ip) :
    ∀ (T : List KRule), (∀ r ∈ T, staleKeepB a r = true) →
      ∀ acc, (ipRuleShow T).foldl (staleStep a) acc = acc := by
  intro T
  induction T with
  | nil => intro _ acc; rfl
  | cons r rest ih =>
    intro h acc
    show ((ruleLine r :: ipRuleShow rest).foldl (staleStep a) acc) = acc
    rw [List.foldl_cons, staleStep_ruleLine hA, if_pos (h r (List.mem_cons_self r rest))]
    exact ih (fun x hx => h x (List.mem_cons_of_mem r hx)) acc

theorem cleanupStaleRules_noop {S : KState} {ps : List RoutingPolicy}
    (h : ∀ r ∈ S, staleKeepB (activeSources ps) r = true) :
    cleanupStaleRules S ps = (S, []) :=
  staleFold_noop (activeSources_shape ps) S h (S, [])

theorem activeSources_fold_mono (ps : List RoutingPolicy) :
    ∀ (acc : List GoStr) (s : GoStr), s ∈ acc → s ∈ ps.foldl (fun acc p =>
      match parsePolicyID p.id with
      | none => acc
      | some srcNet => acc ++ [ipStr srcNet.ip]) acc := by
  induction ps with
  | nil => intro acc s h; exact h
  | cons p t ih =>
    intro acc s h
    rw [List.foldl_cons]
    cases hp : parsePolicyID p.id with
    | none => exact ih acc s h
    | some sn => exact ih _ s (List.mem_append.2 (Or.inl h))

theorem mem_activeSources_aux {p : RoutingPolicy} {sn : SrcNet}
    (hparse : parsePolicyID p.id = some sn) :
    ∀ (ps : List RoutingPolicy) (acc : List GoStr), p ∈ ps →
      ipStr sn.ip ∈ ps.foldl (fun acc q =>
        match parsePolicyID q.id with
        | none => acc
        | some srcNet => acc ++ [ipStr srcNet.ip]) acc := by
  intro ps
  induction ps with
  | nil => intro acc h; cases h
  | cons q t ih =>
    intro acc hp
    rw [List.foldl_cons]
    rcases List.mem_cons.1 hp with rfl | hp'
    · simp only [hparse]
      exact activeSources_fold_mono t _ _ (List.mem_append.2 (Or.inr (by simp)))
    · cases hq : parsePolicyID q.id with
      | none => exact ih _ hp'
      | some sn' => exact ih _ hp'

theorem mem_activeSources {ps : List RoutingPolicy} {p : RoutingPolicy} {sn : SrcNet}
    (hp : p ∈ ps) (hparse : parsePolicyID p.id = some sn) :
    ipStr sn.ip ∈ activeSources ps :=
  mem_activeSources_aux hparse ps [] hp

/-- The managed rule a policy's resolved source network and provider table
produce. -/
def ruleOf (sn : SrcNet) (t : Nat) : KRule := ⟨calculatePriority sn, sn, t⟩

/-- When every listed rule that the substring check can match is the
policy's own rule, the existence check reports exactly that rule's
presence, with its table. -/
theorem check_good {sn : SrcNet} (t : Nat) (hlen : sn.len ≠ 0) :
    ∀ Sc : KState,
      (∀ r ∈ Sc, (∃ w, srcShow r.src = ipStr sn.ip ++ w) → r = ruleOf sn t) →
      ((checkRoutingRuleExists Sc sn).1 = true →
        (checkRoutingRuleExists Sc sn).2.2 = t ∧ ruleOf sn t ∈ Sc) ∧
      ((checkRoutingRuleExists Sc sn).1 = false → ruleOf sn t ∉ Sc) := by
  intro Sc
  induction Sc with
  | nil =>
    intro _
    constructor
    · intro h; simp [checkRoutingRuleExists, ipRuleShow, checkLines] at h
    · intro _; simp
  | cons r rest ih =>
    intro hm
    have hrest := ih (fun x hx hw => hm x (List.mem_cons_of_mem r hx) hw)
    have hshow : checkRoutingRuleExists (r :: rest) sn =
        checkLines sn (ruleLine r :: ipRuleShow rest) := rfl
    by_cases hc : goContains (ruleLine r) (fromPat sn) = true
    · have hr : r = ruleOf sn t :=
        hm r (List.mem_cons_self r rest) ((contains_fromPat_iff r sn).1 hc)
      have hres : checkRoutingRuleExists (r :: rest) sn =
          (true, goAtoiD (goTrimColon ((goFields (ruleLine r)).headD [])),
            goAtoiD ((goFields (ruleLine r)).getLastD [])) := by
        rw [hshow]
        unfold checkLines
        rw [if_pos hc, if_pos (by rw [goFields_ruleLine_length]; omega)]
      constructor
      · intro _
        refine ⟨?_, ?_⟩
        · rw [hres]
          show goAtoiD ((goFields (ruleLine r)).getLastD []) = t
          rw [lineTable_eq, hr]
          rfl
        · rw [hr]
          exact List.mem_cons_self _ _
      · intro hfalse
        rw [hres] at hfalse
        simp at hfalse
    · have hres : checkRoutingRuleExists (r :: rest) sn = checkRoutingRuleExists rest sn := by
        rw [hshow]
        unfold checkLines
        rw [if_neg hc]
        rfl
      have hne : r ≠ ruleOf sn t := by
        intro he
        apply hc
        rw [contains_fromPat_iff]
        rw [he]
        exact srcShow_pfx_self sn hlen
      constructor
      · intro htrue
        rw [hres] at htrue
        rcases hrest.1 htrue with ⟨h1, h2⟩
        exact ⟨by rw [hres]; exact h1, List.mem_cons_of_mem r h2⟩
      · intro hfalse
        rw [hres] at hfalse
        have hnm := hrest.2 hfalse
        intro hmem
        rcases List.mem_cons.1 hmem with he | hmem'
        · exact hne he.symm
        · exact hnm hmem'

theorem SetupPolicy_skip {Sc : KState} {p : RoutingPolicy} {prov : InternetProvider}
    {sn : SrcNet} (hen : p.enabled = true) (hparse : parsePolicyID p.id = some sn)
    (hch : (checkRoutingRuleExists Sc sn).1 = true)
    (htb : (checkRoutingRuleExists Sc sn).2.2 = prov.tableID) :
    SetupPolicy Sc p prov = (Sc, [], none) := by
  unfold SetupPolicy
  rw [if_neg (by simp [hen])]
  rw [hparse]
  simp only
  rw [if_pos hch, if_pos htb]

theorem SetupPolicy_add {Sc : KState} {p : RoutingPolicy} {prov : InternetProvider}
    {sn : SrcNet} (hen : p.enabled = true) (hparse : parsePolicyID p.id = some sn)
    (hch : (checkRoutingRuleExists Sc sn).1 = false) :
    (SetupPolicy Sc p prov).1 = kernelInsert (ruleOf sn prov.tableID) Sc := by
  unfold SetupPolicy
  rw [if_neg (by simp [hen])]
  rw [hparse]
  simp only
  rw [if_neg (by simp [hch])]
  rfl

/-- Every rule of a listing is some listed policy's resolved rule. -/
def fromPolicies (ps : List RoutingPolicy) (provs : List InternetProvider) (r : KRule) : Prop :=
  ∃ p ∈ ps, ∃ sn prov, parsePolicyID p.id = some sn ∧ sn.len ≠ 0 ∧
    lookupProvider provs p.providerID = some prov ∧ r = ruleOf sn prov.tableID

theorem good_match {ps : List RoutingPolicy} {provs : List InternetProvider} {Sc : KState}
    (hg : ∀ r ∈ Sc, fromPolicies ps provs r)
    {p : RoutingPolicy} {sn : SrcNet} {prov : InternetProvider}
    (hp : p ∈ ps) (hparse : parsePolicyID p.id = some sn)
    (hlook : lookupProvider provs p.providerID = some prov)
    (Hpfx : ∀ p ∈ ps, ∀ q ∈ ps, ∀ snp snq, parsePolicyID p.id = some snp →
      parsePolicyID q.id = some snq → (∃ w, srcShow snq = ipStr snp.ip ++ w) → p = q) :
    ∀ r ∈ Sc, (∃ w, srcShow r.src = ipStr sn.ip ++ w) → r = ruleOf sn prov.tableID := by
  intro r hr hw
  rcases hg r hr with ⟨q, hq, snq, provq, hparseq, hlenq, hlookq, hreq⟩
  have hsrc : r.src = snq := by rw [hreq]; rfl
  have hpq : p = q := Hpfx p hp q hq sn snq hparse hparseq (by rw [← hsrc]; exact hw)
  subst hpq
  have h1 : snq = sn := by
    rw [hparse] at hparseq
    exact (Option.some_inj.1 hparseq).symm
  have h2 : provq = prov := by
    rw [hlook] at hlookq
    exact (Option.some_inj.1 hlookq).symm
  rw [hreq, h1, h2]

/-- Run of the per-policy loop over enabled, resolving, prefix-free
policies: the state stays made of policy rules, keeps at most one rule per
exact source, only grows, and ends with every processed policy's rule
present. -/
theorem run1_fold {ps : List RoutingPolicy} {provs : List InternetProvider}
    (Hen : ∀ p ∈ ps, p.enabled = true)
    (Hres : ∀ p ∈ ps, ∃ sn, parsePolicyID p.id = some sn ∧ sn.len ≠ 0 ∧
      ∃ prov, lookupProvider provs p.providerID = some prov)
    (Hpfx : ∀ p ∈ ps, ∀ q ∈ ps, ∀ snp snq, parsePolicyID p.id = some snp →
      parsePolicyID q.id = some snq → (∃ w, srcShow snq = ipStr snp.ip ++ w) → p = q) :
    ∀ (todo : List RoutingPolicy), (∀ p ∈ todo, p ∈ ps) →
      ∀ (acc : KState × List KEvent),
        (∀ r ∈ acc.1, fromPolicies ps provs r) →
        (∀ sn', exactCount sn' acc.1 ≤ 1) →
        (∀ r ∈ (todo.foldl (syncPoliciesStep provs) acc).1, fromPolicies ps provs r) ∧
        (∀ sn', exactCount sn' (todo.foldl (syncPoliciesStep provs) acc).1 ≤ 1) ∧
        (∀ x ∈ acc.1, x ∈ (todo.foldl (syncPoliciesStep provs) acc).1) ∧
        (∀ p ∈ todo, ∀ sn prov, parsePolicyID p.id = some sn →
          lookupProvider provs p.providerID = some prov →
          ruleOf sn prov.tableID ∈ (todo.foldl (syncPoliciesStep provs) acc).1) := by
  intro todo
  induction todo with
  | nil =>
    intro _ acc hg hu
    exact ⟨hg, hu, fun x hx => hx, fun p hp => absurd hp (List.not_mem_nil p)⟩
  | cons p t ih =>
    intro htodo acc hg hu
    have hp : p ∈ ps := htodo p (List.mem_cons_self p t)
    rcases Hres p hp with ⟨sn, hparse, hlen, prov, hlook⟩
    have hen := Hen p hp
    have hmatch := good_match hg hp hparse hlook Hpfx
    rw [List.foldl_cons]
    have hstep : syncPoliciesStep provs acc p =
        ((SetupPolicy acc.1 p prov).1, acc.2 ++ (SetupPolicy acc.1 p prov).2.1) := by
      unfold syncPoliciesStep
      rw [hlook]
    by_cases hch : (checkRoutingRuleExists acc.1 sn).1 = true
    · rcases (check_good prov.tableID hlen acc.1 hmatch).1 hch with ⟨htb, hmem⟩
      have hsp := SetupPolicy_skip hen hparse hch htb
      have hstate : (syncPoliciesStep provs acc p).1 = acc.1 := by
        rw [hstep, hsp]
      have hres := ih (fun q hq => htodo q (List.mem_cons_of_mem p hq))
        (syncPoliciesStep provs acc p)
        (by rw [hstate]; exact hg) (by rw [hstate]; exact hu)
      refine ⟨hres.1, hres.2.1, ?_, ?_⟩
      · intro x hx
        exact hres.2.2.1 x (by rw [hstate]; exact hx)
      · intro q hq sn' prov' hparse' hlook'
        rcases List.mem_cons.1 hq with rfl | hq'
        · have h1 : sn' = sn := by
            rw [hparse] at hparse'
            exact (Option.some_inj.1 hparse').symm
          have h2 : prov' = prov := by
            rw [hlook] at hlook'
            exact (Option.some_inj.1 hlook').symm
          subst h1
          subst h2
          exact hres.2.2.1 _ (by rw [hstate]; exact hmem)
        · exact hres.2.2.2 q hq' sn' prov' hparse' hlook'
    · have hchf : (checkRoutingRuleExists acc.1 sn).1 = false := by
        cases hb : (checkRoutingRuleExists acc.1 sn).1
        · rfl
        · exact absurd hb hch
      have hsp := @SetupPolicy_add acc.1 p prov sn hen hparse hchf
      have hstate : (syncPoliciesStep provs acc p).1 =
          kernelInsert (ruleOf sn prov.tableID) acc.1 := by
        rw [hstep]
        exact hsp
      have hg' : ∀ r ∈ (syncPoliciesStep provs acc p).1, fromPolicies ps provs r := by
        intro r hr
        rw [hstate] at hr
        rcases mem_kernelInsert.1 hr with rfl | hr'
        · exact ⟨p, hp, sn, prov, hparse, hlen, hlook, rfl⟩
        · exact hg r hr'
      have hcnt0 : exactCount sn acc.1 = 0 := exactCount_eq_zero_of_check_false hchf hlen
      have hu' : ∀ sn', exactCount sn' (syncPoliciesStep provs acc p).1 ≤ 1 := by
        intro sn'
        rw [hstate]
        by_cases hss : sn = sn'
        · subst hss
          have hle := exactCount_insert_le (ruleOf sn prov.tableID) acc.1 sn
          omega
        · rw [exactCount_insert_of_ne _ _ _ hss]
          exact hu sn'
      have hres := ih (fun q hq => htodo q (List.mem_cons_of_mem p hq))
        (syncPoliciesStep provs acc p) hg' hu'
      refine ⟨hres.1, hres.2.1, ?_, ?_⟩
      · intro x hx
        exact hres.2.2.1 x (by rw [hstate]; exact mem_kernelInsert.2 (Or.inr hx))
      · intro q hq sn' prov' hparse' hlook'
        rcases List.mem_cons.1 hq with rfl | hq'
        · have h1 : sn' = sn := by
            rw [hparse] at hparse'
            exact (Option.some_inj.1 hparse').symm
          have h2 : prov' = prov := by
            rw [hlook] at hlook'
            exact (Option.some_inj.1 hlook').symm
          subst h1
          subst h2
          exact hres.2.2.1 _ (by rw [hstate]; exact mem_kernelInsert.2 (Or.inl rfl))
        · exact hres.2.2.2 q hq' sn' prov' hparse' hlook'

theorem syncFold_noop {provs : List InternetProvider} {Sc : KState} :
    ∀ (todo : List RoutingPolicy),
      (∀ p ∈ todo, ∃ prov, lookupProvider provs p.providerID = some prov ∧
        SetupPolicy Sc p prov = (Sc, [], none)) →
      ∀ ev, todo.foldl (syncPoliciesStep provs) (Sc, ev) = (Sc, ev) := by
  intro todo
  induction todo with
  | nil => intro _ ev; rfl
  | cons p t ih =>
    intro h ev
    rw [List.foldl_cons]
    rcases h p (List.mem_cons_self p t) with ⟨prov, hlook, hsp⟩
    have hstep : syncPoliciesStep provs (Sc, ev) p = (Sc, ev) := by
      unfold syncPoliciesStep
      rw [hlook]
      simp only
      rw [hsp]
      simp
    rw [hstep]
    exact ih (fun q hq => h q (List.mem_cons_of_mem p hq)) ev

/-- **C3** (amended): starting from an empty rule listing, running the
full-sync pass twice with the same policies and providers performs no
kernel mutation calls during the second invocation and leaves the listing
unchanged — provided every policy is enabled (a disabled policy issues an
unconditional conntrack flush on every pass, see
`syncPolicies_not_idempotent`), every policy's ID resolves to a source
network with nonzero prefix length and to a provider, and no two distinct
policies have one's bare IP string a prefix of the other's rendered source
(the substring-based existence check cannot tell such sources apart). -/
theorem syncPolicies_idempotent (ps : List RoutingPolicy) (provs : List InternetProvider)
    (Hen : ∀ p ∈ ps, p.enabled = true)
    (Hres : ∀ p ∈ ps, ∃ sn, parsePolicyID p.id = some sn ∧ sn.len ≠ 0 ∧
      ∃ prov, lookupProvider provs p.providerID = some prov)
    (Hpfx : ∀ p ∈ ps, ∀ q ∈ ps, ∀ snp snq, parsePolicyID p.id = some snp →
      parsePolicyID q.id = some snq → (∃ w, srcShow snq = ipStr snp.ip ++ w) → p = q) :
    (SyncPolicies (SyncPolicies [] ps provs).1 ps provs).2.1 = [] ∧
    (SyncPolicies (SyncPolicies [] ps provs).1 ps provs).1 = (SyncPolicies [] ps provs).1 := by
  have hrun1 := run1_fold Hen Hres Hpfx ps (fun p hp => hp)
    (([] : KState), ([] : List KEvent))
    (fun r hr => absurd hr (List.not_mem_nil r))
    (fun sn' => by simp [exactCount])
  set F := ps.foldl (syncPoliciesStep provs) (([] : KState), ([] : List KEvent)) with hF
  have hkeep : ∀ r ∈ F.1, staleKeepB (activeSources ps) r = true := by
    intro r hr
    rcases hrun1.1 r hr with ⟨q, hq, snq, provq, hparseq, hlenq, hlookq, hreq⟩
    unfold staleKeepB
    rw [hreq]
    have hIR : inManagedRange (ruleOf snq provq.tableID).pri := calculatePriority_inRange snq
    have hmemA : ipStr (ruleOf snq provq.tableID).src.ip ∈ activeSources ps :=
      mem_activeSources hq hparseq
    have hlen' : (ruleOf snq provq.tableID).src.len ≠ 0 := hlenq
    simp [hIR, hlen', hmemA]
  have hstale1 : cleanupStaleRules F.1 ps = (F.1, []) := cleanupStaleRules_noop hkeep
  have hS1 : (SyncPolicies [] ps provs).1 = F.1 := by
    have hd : (SyncPolicies [] ps provs).1 = (cleanupStaleRules F.1 ps).1 := rfl
    rw [hd, hstale1]
  have hkey : ∀ k, inRangeKeyCount k F.1 ≤ 1 := by
    intro k
    cases hfe : F.1.filter
        (fun r => decide (inManagedRange r.pri) && decide (srcShow r.src = k)) with
    | nil => simp [inRangeKeyCount, hfe]
    | cons r0 l0 =>
      have hr0 : r0 ∈ F.1.filter
          (fun r => decide (inManagedRange r.pri) && decide (srcShow r.src = k)) := by
        rw [hfe]
        exact List.mem_cons_self _ _
      have hr0' := List.mem_filter.1 hr0
      have hk0 : srcShow r0.src = k := by
        have := hr0'.2
        simp only [Bool.and_eq_true, decide_eq_true_eq] at this
        exact this.2
      rcases hrun1.1 r0 hr0'.1 with ⟨q, hq, snq, provq, hparseq, hlenq, hlookq, hreq⟩
      have hlen0 : r0.src.len ≠ 0 := by
        rw [hreq]
        exact hlenq
      have h1 : inRangeKeyCount k F.1 ≤ exactCount r0.src F.1 := by
        rw [← hk0]
        exact inRangeKeyCount_le_exactCount r0.src hlen0 F.1
      exact le_trans h1 (hrun1.2.1 r0.src)
  have hdup2 : cleanupDuplicateRules F.1 = (F.1, []) := cleanupDuplicateRules_noop hkey
  have hsteps : ∀ p ∈ ps, ∃ prov, lookupProvider provs p.providerID = some prov ∧
      SetupPolicy F.1 p prov = (F.1, [], none) := by
    intro p hp
    rcases Hres p hp with ⟨sn, hparse, hlen, prov, hlook⟩
    refine ⟨prov, hlook, ?_⟩
    have hmatch := good_match hrun1.1 hp hparse hlook Hpfx
    have hmem : ruleOf sn prov.tableID ∈ F.1 := hrun1.2.2.2 p hp sn prov hparse hlook
    have hch : (checkRoutingRuleExists F.1 sn).1 = true := by
      cases hb : (checkRoutingRuleExists F.1 sn).1
      · exact absurd hmem ((check_good prov.tableID hlen F.1 hmatch).2 hb)
      · rfl
    rcases (check_good prov.tableID hlen F.1 hmatch).1 hch with ⟨htb, _⟩
    exact SetupPolicy_skip (Hen p hp) hparse hch htb
  have hfold2 : ps.foldl (syncPoliciesStep provs) (F.1, ([] : List KEvent)) = (F.1, []) :=
    syncFold_noop ps hsteps []
  have hrun2 : SyncPolicies F.1 ps provs = (F.1, [], none) := by
    have h1 : SyncPolicies F.1 ps provs =
        ((cleanupStaleRules (ps.foldl (syncPoliciesStep provs)
            ((cleanupDuplicateRules F.1).1, [])).1 ps).1,
         (cleanupDuplicateRules F.1).2 ++
           (ps.foldl (syncPoliciesStep provs) ((cleanupDuplicateRules F.1).1, [])).2 ++
           (cleanupStaleRules (ps.foldl (syncPoliciesStep provs)
             ((cleanupDuplicateRules F.1).1, [])).1 ps).2, none) := rfl
    rw [h1, hdup2]
    dsimp only
    rw [hfold2]
    dsimp only
    rw [hstale1]
    rfl
  constructor
  · rw [hS1, hrun2]
  · rw [hS1, hrun2]

theorem syncPolicies_idempotent_witness :
    (SyncPolicies
        (SyncPolicies [] [⟨("10.0.0.1").toList, ['a'], ['P','1'], true⟩]
          [⟨['P','1'], ['q'], 100⟩]).1
        [⟨("10.0.0.1").toList, ['a'], ['P','1'], true⟩]
        [⟨['P','1'], ['q'], 100⟩]).2.1 = [] ∧
    (SyncPolicies
        (SyncPolicies [] [⟨("10.0.0.1").toList, ['a'], ['P','1'], true⟩]
          [⟨['P','1'], ['q'], 100⟩]).1
        [⟨("10.0.0.1").toList, ['a'], ['P','1'], true⟩]
        [⟨['P','1'], ['q'], 100⟩]).1 =
      (SyncPolicies [] [⟨("10.0.0.1").toList, ['a'], ['P','1'], true⟩]
        [⟨['P','1'], ['q'], 100⟩]).1 :=
  syncPolicies_idempotent _ _ (by decide)
    (fun p hp => by
      simp only [List.mem_singleton] at hp
      subst hp
      exact ⟨⟨⟨10,0,0,1⟩, 32⟩, by decide, by decide, ⟨⟨['P','1'], ['q'], 100⟩, by decide⟩⟩)
    (fun p hp q hq snp snq h1 h2 h3 => by
      simp only [List.mem_singleton] at hp hq
      rw [hp, hq])
